import Mathlib

/-!
Verification development for a trie library (`lab.py`) offering
frequency-weighted autocomplete, edit-distance autocorrect and wildcard
pattern search.

The Python code is shallowly embedded:
* a `Trie` instance becomes the inductive `PTrie V` (value slot, configured
  key kind, association list of children, spelled out as the mutual type
  `Kids V` so that structural recursion is available);
* Python keys (a `str` or a `tuple`) become `PKey`; one key unit (one
  character, or one tuple element) becomes `KUnit`;
* a Python value slot holds either `None` (the absent sentinel) or a real
  value: `Option V`;
* fallible operations return `Except PyErr _`; the constructors of `PyErr`
  record which Python exception is raised (`TypeError` for a kind mismatch,
  `KeyError`, `IndexError` from indexing an empty sequence, and the
  `TypeError` raised by `range(None, 0, -1)`).
-/

/-- One Python exception kind as raised by the library.  `typeKindErr` is the
`TypeError` of `_valid_key`; `keyErr` is `KeyError`; `indexErr` is the
`IndexError` of `key[0]` on an empty key; `rangeNoneErr` is the `TypeError`
of `range(None, 0, -1)`. -/
inductive PyErr : Type where
  | typeKindErr : PyErr
  | keyErr : PyErr
  | indexErr : PyErr
  | rangeNoneErr : PyErr
deriving DecidableEq, Repr

/-- The configured key kind of a trie: Python `str` or `tuple`. -/
inductive Kind : Type where
  | kstr : Kind
  | ktup : Kind
deriving DecidableEq, Repr

/-- One key unit: a character of a string key, or one element of a tuple key
(the code stores tuple elements wrapped as singleton tuples `(k,)`; the
wrapping is a bijection, so a unit is modelled as the element itself). -/
inductive KUnit : Type where
  | uch : Char → KUnit
  | uel : String → KUnit
deriving DecidableEq, Repr

/-- A Python key: a string, or a tuple (whose elements are modelled as
strings, as produced by `make_phrase_trie`). -/
inductive PKey : Type where
  | pstr : List Char → PKey
  | ptup : List String → PKey
deriving DecidableEq, Repr

/-- `type(key)` as compared by `_valid_key`. -/
def PKey.kind : PKey → Kind
  | .pstr _ => .kstr
  | .ptup _ => .ktup

/-- The sequence of key units traversed by `for k in key`. -/
def PKey.units : PKey → List KUnit
  | .pstr cs => cs.map KUnit.uch
  | .ptup es => es.map KUnit.uel

mutual
/-- A `Trie` instance: `self.value`, `self.key_type`, `self.children`. -/
inductive PTrie (V : Type) : Type where
  | node (value : Option V) (keyType : Kind) (children : Kids V) : PTrie V

/-- The children dict of a node: an insertion-ordered association list with
(by construction) pairwise distinct keys. -/
inductive Kids (V : Type) : Type where
  | nil : Kids V
  | cons (u : KUnit) (t : PTrie V) (rest : Kids V) : Kids V
end

/-- `self.value`. -/
def PTrie.value {V : Type} : PTrie V → Option V
  | .node v _ _ => v

/-- `self.key_type`. -/
def PTrie.keyType {V : Type} : PTrie V → Kind
  | .node _ k _ => k

/-- `self.children`. -/
def PTrie.children {V : Type} : PTrie V → Kids V
  | .node _ _ cs => cs

/-- Dict lookup `children[k]` / membership `k in children`: the first (and,
for dicts, only) binding of `u`. -/
def Kids.lookup {V : Type} (u : KUnit) : Kids V → Option (PTrie V)
  | .nil => none
  | .cons u' t rest => if u' = u then some t else Kids.lookup u rest

/-- Dict assignment `children[k] = t`: replace the binding of `u` in place,
or append a new binding at the end (Python dicts keep insertion order). -/
def Kids.update {V : Type} (u : KUnit) (t : PTrie V) : Kids V → Kids V
  | .nil => .cons u t .nil
  | .cons u' t' rest =>
      if u' = u then .cons u t rest else .cons u' t' (Kids.update u t rest)

/-- The keys of the children dict, in order. -/
def Kids.keys {V : Type} : Kids V → List KUnit
  | .nil => []
  | .cons u _ rest => u :: Kids.keys rest

/-- `_find_trie`'s loop: walk the unit sequence, descending through
`children`; a missing child raises `KeyError`. -/
def findGo {V : Type} : PTrie V → List KUnit → Except PyErr (PTrie V)
  | t, [] => .ok t
  | t, u :: rest =>
      match Kids.lookup u t.children with
      | some c => findGo c rest
      | none => .error .keyErr

/-- `Trie._find_trie`: `_valid_key` (a kind mismatch raises `TypeError`),
then walk the key's units from this node. -/
def findTrie {V : Type} (t : PTrie V) (key : PKey) : Except PyErr (PTrie V) :=
  if key.kind = t.keyType then findGo t key.units else .error .typeKindErr

/-- Overwrite `self.value` keeping everything else. -/
def PTrie.withValue {V : Type} : PTrie V → Option V → PTrie V
  | .node _ k cs, v => .node v k cs

/-- The recursive body of `__setitem__` once `_valid_key` has passed and the
key is non-empty.  `u` is `key[0]`, `rest` the units of `key[1:]`.  The code
fetches or creates (`Trie(self.key_type)`) the child at `u`, then either sets
that child's value (`len(key) == 1`) or recurses with `key[1:]`; the
recursive call's own `_valid_key` always passes because a slice has the same
Python type as the key, and its own `key[0]` cannot fail because the code
only recurses when `len(key) > 1`. -/
def setGo {V : Type} : PTrie V → KUnit → List KUnit → Option V → PTrie V
  | .node val kd cs, u, [], v =>
      let cur := (Kids.lookup u cs).getD (.node none kd .nil)
      .node val kd (Kids.update u (cur.withValue v) cs)
  | .node val kd cs, u, r :: rs, v =>
      let cur := (Kids.lookup u cs).getD (.node none kd .nil)
      .node val kd (Kids.update u (setGo cur r rs v) cs)

/-- `Trie.__setitem__`: `_valid_key` first (`TypeError` on kind mismatch);
then `key[0]` (`IndexError` on an empty key); then the recursive insertion,
which cannot fail. -/
def setItem {V : Type} (t : PTrie V) (key : PKey) (v : Option V) :
    Except PyErr (PTrie V) :=
  if key.kind = t.keyType then
    match key.units with
    | [] => .error .indexErr
    | u :: rest => .ok (setGo t u rest v)
  else .error .typeKindErr

/-- `Trie.__getitem__`: `self._find_trie(key).value`.  Note that the code
returns the value slot as is — a node that exists but holds `None` yields
`None` rather than raising `KeyError`. -/
def getItem {V : Type} (t : PTrie V) (key : PKey) : Except PyErr (Option V) :=
  (findTrie t key).map PTrie.value

/-- The path-walking body of `__delitem__`: find the node, raise `KeyError`
if its value is `None`, else clear the value (the mutation is modelled by
rebuilding the spine with `Kids.update`). -/
def delGo {V : Type} : PTrie V → List KUnit → Except PyErr (PTrie V)
  | t, [] =>
      match t.value with
      | none => .error .keyErr
      | some _ => .ok (t.withValue none)
  | t, u :: rest =>
      match Kids.lookup u t.children with
      | some c =>
          (delGo c rest).map fun c' =>
            .node t.value t.keyType (Kids.update u c' t.children)
      | none => .error .keyErr

/-- `Trie.__delitem__`: `_find_trie` (with its kind check), then `KeyError`
when the found node's value is already `None`, else set it to `None`. -/
def delItem {V : Type} (t : PTrie V) (key : PKey) : Except PyErr (PTrie V) :=
  if key.kind = t.keyType then delGo t key.units else .error .typeKindErr

/-- `Trie.__contains__`: `_find_trie` inside `try`, catching `KeyError` only
(a `TypeError` propagates); a found node counts iff its value is not `None`. -/
def containsOp {V : Type} (t : PTrie V) (key : PKey) : Except PyErr Bool :=
  match findTrie t key with
  | .ok n => .ok n.value.isSome
  | .error .keyErr => .ok false
  | .error e => .error e

mutual
/-- `Trie.recursive_generator`: yield `(key, value)` when the node holds a
value, then recurse into each child with `key + k`.  The result is the list
of yielded pairs in generator order. -/
def entriesGo {V : Type} (key : List KUnit) : PTrie V → List (List KUnit × V)
  | .node v _ cs =>
      (match v with | some x => [(key, x)] | none => []) ++ entriesKids key cs

/-- The `for k, t in trie.children.items()` loop of `recursive_generator`. -/
def entriesKids {V : Type} (key : List KUnit) : Kids V → List (List KUnit × V)
  | .nil => []
  | .cons u t rest => entriesGo (key ++ [u]) t ++ entriesKids key rest
end

/-- `Trie.__iter__`: `recursive_generator` started at the empty key (the code
starts at `''` or `()` by kind; both denote the empty unit sequence). -/
def iterOp {V : Type} (t : PTrie V) : List (List KUnit × V) :=
  entriesGo [] t

mutual
/-- Well-formedness every trie reachable from the API enjoys: the children
keys at every node are pairwise distinct (Python dict keys are unique). -/
def wfT {V : Type} : PTrie V → Bool
  | .node _ _ cs => (Kids.keys cs).Nodup && wfKids cs

/-- `wfT` for every child of a children list. -/
def wfKids {V : Type} : Kids V → Bool
  | .nil => true
  | .cons _ t rest => wfT t && wfKids rest
end

/-- The fresh `Trie(str)` a word index starts from. -/
def emptyStrTrie : PTrie Nat := .node none .kstr .nil

/-- `make_word_trie`, taking the corpus already tokenized into words (the
spec treats tokenization as an external collaborator): for each word,
increment its count if present, else set it to 1. -/
def mkWordTrie (words : List (List Char)) : PTrie Nat :=
  words.foldl
    (fun t w =>
      match containsOp t (.pstr w) with
      | .ok true =>
          match getItem t (.pstr w) with
          | .ok (some c) => (setItem t (.pstr w) (some (c + 1))).toOption.getD t
          | _ => t
      | _ => (setItem t (.pstr w) (some 1)).toOption.getD t)
    emptyStrTrie

/-- One step of `autocomplete`'s frequency-map update: `freq_map[count] |= {e[0]}`
on an existing bucket (a set add: append only when absent), or
`freq_map[count] = {e[0]}` on a fresh one (dicts append new keys at the end). -/
def freqAdd : List (Nat × List (List KUnit)) → Nat → List KUnit →
    List (Nat × List (List KUnit))
  | [], c, w => [(c, [w])]
  | (c', ws) :: rest, c, w =>
      if c' = c then (c', if w ∈ ws then ws else ws ++ [w]) :: rest
      else (c', ws) :: freqAdd rest c w

/-- `if not max_freq or count > max_freq: max_freq = count` — note Python's
falsiness makes `not max_freq` true both for `None` and for `0`. -/
def maxUpd (mf : Option Nat) (c : Nat) : Option Nat :=
  match mf with
  | none => some c
  | some m => if m = 0 ∨ m < c then some c else some m

/-- One iteration of the `for e in t` loop of `autocomplete`: update the
frequency map with `e[0]` under `count = e[1]` and the running maximum. -/
def freqStep (acc : List (Nat × List (List KUnit)) × Option Nat)
    (e : List KUnit × Nat) : List (Nat × List (List KUnit)) × Option Nat :=
  (freqAdd acc.1 e.2 e.1, maxUpd acc.2 e.2)

/-- The `for e in t` loop of `autocomplete`: build the frequency map and the
running maximum over the subtree's entries. -/
def buildFreq (es : List (List KUnit × Nat)) :
    List (Nat × List (List KUnit)) × Option Nat :=
  es.foldl freqStep ([], none)

/-- `i in freq_map` / `freq_map[i]`. -/
def freqGet : List (Nat × List (List KUnit)) → Nat → Option (List (List KUnit))
  | [], _ => none
  | (c', ws) :: rest, c => if c' = c then some ws else freqGet rest c

/-- The inner `for w in freq_map[i]` loop: append `prefix + w` while the list
is below `max_count` (always, when `max_count is None`); the first failure
`break`s, after which the list length no longer changes. -/
def addWords (maxCount : Option Nat) (pfx : List KUnit) :
    List (List KUnit) → List (List KUnit) → List (List KUnit)
  | [], acc => acc
  | w :: rest, acc =>
      match maxCount with
      | none => addWords maxCount pfx rest (acc ++ [pfx ++ w])
      | some m =>
          if acc.length < m then addWords maxCount pfx rest (acc ++ [pfx ++ w])
          else acc

/-- The outer `for i in range(max_freq, 0, -1)` loop: visit buckets from the
highest frequency down to 1. -/
def bucketsLoop (fm : List (Nat × List (List KUnit))) (maxCount : Option Nat)
    (pfx : List KUnit) : Nat → List (List KUnit) → List (List KUnit)
  | 0, acc => acc
  | i + 1, acc =>
      bucketsLoop fm maxCount pfx i
        (match freqGet fm (i + 1) with
         | some ws => addWords maxCount pfx ws acc
         | none => acc)

/-- `autocomplete(trie, prefix, max_count)`: locate the subtree (`KeyError`
is caught and yields `[]`; a `TypeError` propagates), build the frequency
map over the subtree's entries, then emit `prefix + w` by descending
frequency bucket.  When the subtree has no valued entry, `max_freq` is still
`None` and `range(None, 0, -1)` raises `TypeError` (`rangeNoneErr`). -/
def autocompleteOp (t : PTrie Nat) (pfx : PKey) (maxCount : Option Nat) :
    Except PyErr (List (List KUnit)) :=
  match findTrie t pfx with
  | .error .keyErr => .ok []
  | .error e => .error e
  | .ok sub =>
      match buildFreq (iterOp sub) with
      | (_, none) => .error .rangeNoneErr
      | (fm, some m) => .ok (bucketsLoop fm maxCount pfx.units m [])

/-- The alphabet `'abcdefghijklmnopqrstuvwxyz'`. -/
def letters : List Char := "abcdefghijklmnopqrstuvwxyz".toList

/-- `get_single_insertions`: any one letter at any position. -/
def getSingleInsertions (p : List Char) : List (List Char) :=
  (List.range (p.length + 1)).flatMap fun i =>
    letters.map fun l => p.take i ++ [l] ++ p.drop i

/-- `get_single_deletions`: remove any one character. -/
def getSingleDeletions (p : List Char) : List (List Char) :=
  (List.range p.length).map fun i => p.take i ++ p.drop (i + 1)

/-- `get_single_replacement`: replace any one character by any letter. -/
def getSingleReplacement (p : List Char) : List (List Char) :=
  (List.range p.length).flatMap fun i =>
    letters.map fun l => p.take i ++ [l] ++ p.drop (i + 1)

/-- `get_two_char_transpose` as written: for every pair `i < j` (adjacent or
not!) emit `prefix[:i] + prefix[j] + prefix[i+1:j] + prefix[i] + prefix[j+1:]`. -/
def getTwoCharTranspose (p : List Char) : List (List Char) :=
  (List.range (p.length - 1)).flatMap fun i =>
    (List.range' (i + 1) (p.length - (i + 1))).map fun j =>
      p.take i ++ (p.drop j).take 1 ++ (p.drop (i + 1)).take (j - (i + 1)) ++
        (p.drop i).take 1 ++ p.drop (j + 1)

/-- `get_edits`: all four generators in order. -/
def getEdits (p : List Char) : List (List Char) :=
  getSingleInsertions p ++ getSingleDeletions p ++ getSingleReplacement p ++
    getTwoCharTranspose p

/-- Modelled from the spec: the transpositions the spec asks for — switching
two ADJACENT characters only. -/
def adjacentTransposes (p : List Char) : List (List Char) :=
  (List.range (p.length - 1)).map fun i =>
    p.take i ++ ((p.drop i).take 2).reverse ++ p.drop (i + 2)

/-- Modelled from the spec: the edit-distance-1 neighborhood — every
single-character insertion from the 26-letter lowercase alphabet at every
position, every single-character deletion, every single-character
substitution from that alphabet, and every adjacent-pair transposition. -/
def ed1Neighborhood (p : List Char) : List (List Char) :=
  getSingleInsertions p ++ getSingleDeletions p ++ getSingleReplacement p ++
    adjacentTransposes p

/-- The `for word in get_edits(prefix)` loop of `autocorrect`: skip words
already in `used_words` and words not in the trie (`word in trie` catches
`KeyError` only, so a kind mismatch would propagate), read `trie[word]` and
update the frequency map and running maximum.  (`word in trie` guarantees
the value slot is set, so `trie[word]` yields an actual count.) -/
def editFold (t : PTrie Nat) (used : List (List KUnit)) :
    List (List Char) → List (Nat × List (List KUnit)) × Option Nat →
    Except PyErr (List (Nat × List (List KUnit)) × Option Nat)
  | [], acc => .ok acc
  | w :: rest, (fm, mf) =>
      let wu := w.map KUnit.uch
      if wu ∈ used then editFold t used rest (fm, mf)
      else
        match containsOp t (.pstr w) with
        | .error e => .error e
        | .ok false => editFold t used rest (fm, mf)
        | .ok true =>
            match getItem t (.pstr w) with
            | .ok (some c) => editFold t used rest (freqAdd fm c wu, maxUpd mf c)
            | _ => editFold t used rest (fm, mf)

/-- The edit half of `autocorrect`: build the frequency map over the valid
unused edits of `prefix`, then append them to the autocomplete results by
descending frequency (the appended words are whole words, not
`prefix + w`); an empty map again reaches `range(None, 0, -1)`. -/
def editPhase (t : PTrie Nat) (pfx : List Char) (maxCount : Option Nat)
    (el : List (List KUnit)) : Except PyErr (List (List KUnit)) :=
  match editFold t el (getEdits pfx) ([], none) with
  | .error e => .error e
  | .ok (_, none) => .error .rangeNoneErr
  | .ok (fm, some m) => .ok (bucketsLoop fm maxCount [] m el)

/-- `autocorrect(trie, prefix, max_count)`: run `autocomplete`; when
`max_count is None or len(element_list) < max_count`, extend the list via
the edit phase, else return it as is. -/
def autocorrectOp (t : PTrie Nat) (pfx : List Char) (maxCount : Option Nat) :
    Except PyErr (List (List KUnit)) :=
  match autocompleteOp t (.pstr pfx) maxCount with
  | .error e => .error e
  | .ok el =>
      if (match maxCount with | none => true | some m => el.length < m) then
        editPhase t pfx maxCount el
      else .ok el

/-- Python `==` between a child key unit and a pattern character: equality on
characters; a tuple element never equals a character. -/
def unitEqChar (u : KUnit) (c : Char) : Bool :=
  match u with
  | .uch c' => c' = c
  | .uel _ => false

mutual
/-- Structural size of a trie, the termination measure for `searchT`. -/
def PTrie.sz {V : Type} : PTrie V → Nat
  | .node _ _ cs => 1 + Kids.sz cs

/-- Structural size of a children list. -/
def Kids.sz {V : Type} : Kids V → Nat
  | .nil => 0
  | .cons _ t rest => 1 + PTrie.sz t + Kids.sz rest
end

/-- A child found by dict lookup is smaller than the children list. -/
theorem Kids.sz_lookup {V : Type} :
    ∀ (ks : Kids V) (u : KUnit) (t : PTrie V),
      Kids.lookup u ks = some t → PTrie.sz t < Kids.sz ks
  | .nil, u, t, h => by simp [Kids.lookup] at h
  | .cons u' t' rest, u, t, h => by
      by_cases hu : u' = u
      · simp [Kids.lookup, hu] at h
        subst h
        simp [Kids.sz]
        omega
      · simp [Kids.lookup, hu] at h
        have := Kids.sz_lookup rest u t h
        simp [Kids.sz]
        omega

/-- `dropWhile` never lengthens a list. -/
theorem dropWhile_len_le {a : Type} (p : a → Bool) :
    ∀ l : List a, (List.dropWhile p l).length ≤ l.length
  | [] => le_refl _
  | x :: xs => by
      simp only [List.dropWhile]
      cases p x with
      | true => exact le_trans (dropWhile_len_le p xs) (Nat.le_succ _)
      | false => exact le_refl _

/-- A node's children list is smaller than the node. -/
theorem PTrie.sz_children_lt {V : Type} (t : PTrie V) :
    Kids.sz t.children < PTrie.sz t := by
  cases t with
  | node v k cs => simp [PTrie.children, PTrie.sz]

mutual
/-- `search(trie, pattern, word)`.  The source re-walks the trie from the
root (`trie._find_trie(word)`, `word in trie`, `trie[word]`); every call site
maintains the invariant that `word` is the path of the current node, so the
walk always succeeds and returns that node — modelled here by passing the
current node `cur` directly (its children are `_find_trie(word).children`,
its value slot decides `word in trie` and provides `trie[word]`).  With the
pattern consumed, yield `(word, value)` when the node holds a value.  A
leading `*` first collapses an immediately following run of `*`
(the `while` loop, modelled by `dropWhile`), then takes the zero-characters
branch plus, per child, the star-stays-active branch and — when the
character after `*` equals the child's key — the skip branch.  A `?`
descends into every child; a literal descends into the matching child if
any (`except KeyError` yields no matches).  Branch results accumulate into
a Python set: a `Finset`. -/
def searchT (pat : List Char) (word : List KUnit) (cur : PTrie Nat) :
    Finset (List KUnit × Nat) :=
  match pat with
  | [] =>
      match cur.value with
      | some v => {(word, v)}
      | none => ∅
  | p0 :: prest =>
      if p0 = '*' then
        searchT (prest.dropWhile (fun c => c == '*')) word cur ∪
          searchStarKids (prest.dropWhile (fun c => c == '*')) word cur.children
      else if p0 = '?' then searchAnyKids prest word cur.children
      else
        match h : Kids.lookup (KUnit.uch p0) cur.children with
        | some c => searchT prest (word ++ [KUnit.uch p0]) c
        | none => ∅
termination_by (PTrie.sz cur, pat.length)
decreasing_by
  · exact Prod.Lex.right (PTrie.sz cur)
      (Nat.lt_succ_of_le (dropWhile_len_le _ _))
  · exact Prod.Lex.left _ _ (PTrie.sz_children_lt cur)
  · exact Prod.Lex.left _ _ (PTrie.sz_children_lt cur)
  · exact Prod.Lex.left _ _
      (lt_trans (Kids.sz_lookup _ _ _ h) (PTrie.sz_children_lt cur))

/-- The `for c in trie._find_trie(word).children` loop of the `*` branch
(`prest` is the collapsed pattern after the leading `*`). -/
def searchStarKids (prest : List Char) (word : List KUnit) :
    Kids Nat → Finset (List KUnit × Nat)
  | .nil => ∅
  | .cons u tc rest =>
      searchT ('*' :: prest) (word ++ [u]) tc ∪
        (match prest with
         | p1 :: _ =>
             if unitEqChar u p1 then searchT prest (word ++ [u]) tc else ∅
         | [] => ∅) ∪
        searchStarKids prest word rest
termination_by ks => (Kids.sz ks, 0)
decreasing_by
  all_goals exact Prod.Lex.left _ _ (by simp only [Kids.sz]; omega)

/-- The `for c in trie._find_trie(word).children` loop of the `?` branch. -/
def searchAnyKids (prest : List Char) (word : List KUnit) :
    Kids Nat → Finset (List KUnit × Nat)
  | .nil => ∅
  | .cons u tc rest =>
      searchT prest (word ++ [u]) tc ∪ searchAnyKids prest word rest
termination_by ks => (Kids.sz ks, 0)
decreasing_by
  all_goals exact Prod.Lex.left _ _ (by simp only [Kids.sz]; omega)
end

/-- `word_filter(trie, pattern)`: `search` from the empty word at the root;
the code returns `list(matches)` in unspecified order, modelled as the set
itself. -/
def wordFilterOp (t : PTrie Nat) (pat : List Char) : Finset (List KUnit × Nat) :=
  searchT pat [] t

/-- Modelled from the spec: declarative pattern matching on a stored key —
a literal character matches itself, `?` matches exactly one arbitrary unit,
`*` matches zero or more arbitrary units (every split is tried). -/
def keyMatch : List Char → List KUnit → Bool
  | [], w => w.isEmpty
  | c :: p, w =>
      if c = '*' then w.tails.any (fun s => keyMatch p s)
      else
        match w with
        | [] => false
        | u :: w' => (if c = '?' then true else unitEqChar u c) && keyMatch p w'

/-- The characters of a string literal, for concrete keys. -/
def chars (s : String) : List Char := s.toList

/-- A concrete string key. -/
def strKey (s : String) : PKey := .pstr s.toList

/-- The unit sequence of a concrete string key. -/
def wunits (s : String) : List KUnit := s.toList.map KUnit.uch

/-- The error of a fallible result, if any (used to state results about
which exception an operation raises without comparing whole tries). -/
def resErr {α : Type} : Except PyErr α → Option PyErr
  | .ok _ => none
  | .error e => some e

/-- Build a word trie step by step: `trie[s] = n` (total wrapper over
`setItem`, which cannot fail on a non-empty string key). -/
def setW (t : PTrie Nat) (s : String) (n : Nat) : PTrie Nat :=
  (setItem t (strKey s) (some n)).toOption.getD t

/-- The trie after `t = Trie(str); t['bat'] = 2; t['bats'] = 7`. -/
def trieBatBats : PTrie Nat := setW (setW emptyStrTrie "bat" 2) "bats" 7

/-- `trieBatBats` after `del t['bat']`. -/
def trieBatDeleted : PTrie Nat :=
  (delItem trieBatBats (strKey "bat")).toOption.getD trieBatBats

/-- A `findGo` walk can only fail with `KeyError`. -/
theorem findGo_error_eq {V : Type} :
    ∀ (us : List KUnit) (t : PTrie V) (e : PyErr),
      findGo t us = .error e → e = .keyErr
  | [], _, _, h => by simp [findGo] at h
  | u :: rest, t, e, h => by
      cases hq : Kids.lookup u t.children with
      | some c =>
          rw [findGo, hq] at h
          exact findGo_error_eq rest c e h
      | none =>
          rw [findGo, hq] at h
          cases h
          rfl

/-- C2: after `set('bat', 2)`, `set('bats', 7)` and `delete('bat')`, the
code's `contains('bat')` is false and a second `delete('bat')` raises
`KeyError`, and the extending key `'bats'` keeps its value — but `get('bat')`
returns `None` instead of raising `KeyError` (`NotFound`), contradicting the
claim and `__getitem__`'s own docstring. -/
theorem get_after_delete_returns_none :
    containsOp trieBatDeleted (strKey "bat") = .ok false ∧
    getItem trieBatDeleted (strKey "bat") = .ok none ∧
    resErr (delItem trieBatDeleted (strKey "bat")) = some .keyErr ∧
    getItem trieBatDeleted (strKey "bats") = .ok (some 7) ∧
    containsOp trieBatDeleted (strKey "bats") = .ok true :=
  ⟨rfl, rfl, rfl, rfl, rfl⟩

/-- C4: the edit generator emits `'cba'` for `'abc'` — the transposition of
the NON-adjacent characters at positions 0 and 2 — which lies outside the
edit-distance-1 neighborhood the spec describes (and outside
`get_two_char_transpose`'s own docstring, which says adjacent characters). -/
theorem transpose_includes_nonadjacent :
    chars "cba" ∈ getTwoCharTranspose (chars "abc") ∧
    chars "cba" ∈ getEdits (chars "abc") ∧
    chars "cba" ∉ ed1Neighborhood (chars "abc") :=
  ⟨by decide, by decide, by decide⟩

/-- C7: a key whose kind differs from the trie's raises `TypeError` from
`set`, `get`, `delete` and `contains` alike; with the matching kind,
`contains` never raises, and a missing path yields `false`. -/
theorem kind_enforcement {V : Type} (t : PTrie V) (k : PKey) (v : Option V) :
    (k.kind ≠ t.keyType →
      setItem t k v = .error .typeKindErr ∧
      getItem t k = .error .typeKindErr ∧
      delItem t k = .error .typeKindErr ∧
      containsOp t k = .error .typeKindErr) ∧
    (k.kind = t.keyType → ∃ b, containsOp t k = .ok b) ∧
    (k.kind = t.keyType → findGo t k.units = .error .keyErr →
      containsOp t k = .ok false) := by
  refine ⟨fun hne => ?_, fun heq => ?_, fun heq hmiss => ?_⟩
  · exact ⟨by simp [setItem, hne], by simp [getItem, findTrie, hne, Except.map],
      by simp [delItem, hne], by simp [containsOp, findTrie, hne]⟩
  · unfold containsOp findTrie
    rw [if_pos heq]
    cases hgo : findGo t k.units with
    | ok n => exact ⟨n.value.isSome, rfl⟩
    | error e =>
        cases findGo_error_eq _ _ _ hgo
        exact ⟨false, rfl⟩
  · unfold containsOp findTrie
    rw [if_pos heq, hmiss]

/-- C7 witness: a tuple key on a string trie makes `set` raise `TypeError`;
a well-kinded missing key makes `contains` return `false`. -/
theorem kind_enforcement_witness :
    setItem emptyStrTrie (PKey.ptup ["x"]) (some 1) = .error .typeKindErr ∧
    containsOp emptyStrTrie (strKey "zz") = .ok false :=
  ⟨((kind_enforcement emptyStrTrie (PKey.ptup ["x"]) (some 1)).1 (by decide)).1,
   (kind_enforcement (V := Nat) emptyStrTrie (strKey "zz") none).2.2
     (by decide) rfl⟩

/-- C8 counterexample: on an empty key of the correct kind, `set` raises
`IndexError` (`key[0]` on an empty sequence), not the kind-mismatch
`TypeError` the claim says is the only possible failure. -/
theorem set_empty_key_index_error :
    setItem emptyStrTrie (PKey.pstr []) (some 0) = .error .indexErr ∧
    (PKey.pstr []).kind = emptyStrTrie.keyType :=
  ⟨rfl, rfl⟩

/-- C8 (amended): `set` either fully succeeds, or fails before any mutation,
and the only failures are the kind-mismatch `TypeError` and — the case the
claim misses — `IndexError` on an empty key. -/
theorem set_error_characterization {V : Type} (t : PTrie V) (k : PKey)
    (v : Option V) :
    (∀ e, setItem t k v = .error e ↔
      (e = .typeKindErr ∧ k.kind ≠ t.keyType) ∨
      (e = .indexErr ∧ k.kind = t.keyType ∧ k.units = [])) ∧
    (k.kind = t.keyType → k.units ≠ [] → ∃ t', setItem t k v = .ok t') := by
  constructor
  · intro e
    unfold setItem
    by_cases h : k.kind = t.keyType
    · rw [if_pos h]
      cases hu : k.units with
      | nil => simp [h]; exact eq_comm
      | cons u rest => simp [h]
    · rw [if_neg h]
      simp [h]
      exact eq_comm
  · intro heq hne
    unfold setItem
    rw [if_pos heq]
    cases hu : k.units with
    | nil => exact absurd hu hne
    | cons u rest => exact ⟨setGo t u rest v, rfl⟩

/-- C8 witness: a non-empty, well-kinded key makes `set` succeed. -/
theorem set_error_characterization_witness :
    ∃ t', setItem emptyStrTrie (strKey "a") (some 5) = .ok t' :=
  (set_error_characterization emptyStrTrie (strKey "a") (some 5)).2
    (by decide) (by decide)

/-- Updating a binding makes it the one `lookup` finds. -/
theorem Kids.lookup_update_self {V : Type} (u : KUnit) (t : PTrie V) :
    ∀ ks : Kids V, Kids.lookup u (Kids.update u t ks) = some t
  | .nil => by simp [Kids.update, Kids.lookup]
  | .cons u' t' rest => by
      by_cases h : u' = u
      · simp [Kids.update, h, Kids.lookup]
      · simp [Kids.update, h, Kids.lookup, Kids.lookup_update_self u t rest]

/-- `setGo` keeps the node's configured kind. -/
theorem setGo_keyType {V : Type} (t : PTrie V) (u : KUnit) (rest : List KUnit)
    (v : Option V) : (setGo t u rest v).keyType = t.keyType := by
  cases t with
  | node val kd cs => cases rest <;> rfl

/-- Clearing or setting a value slot leaves the slot as given. -/
theorem PTrie.value_withValue {V : Type} (t : PTrie V) (v : Option V) :
    (t.withValue v).value = v := by
  cases t with
  | node val kd cs => rfl

/-- One step of `findGo` through a present child. -/
theorem findGo_cons {V : Type} (t : PTrie V) (u : KUnit) (rest : List KUnit)
    (c : PTrie V) (h : Kids.lookup u t.children = some c) :
    findGo t (u :: rest) = findGo c rest := by
  rw [findGo, h]

/-- After `setGo`, walking the same key finds a node holding the new value. -/
theorem findGo_setGo {V : Type} :
    ∀ (rest : List KUnit) (t : PTrie V) (u : KUnit) (v : Option V),
      ∃ n, findGo (setGo t u rest v) (u :: rest) = .ok n ∧ n.value = v
  | [], .node val kd cs, u, v => by
      refine ⟨((Kids.lookup u cs).getD (.node none kd .nil)).withValue v, ?_, ?_⟩
      · simp [setGo, findGo, PTrie.children, Kids.lookup_update_self]
      · exact PTrie.value_withValue _ v
  | r :: rs, .node val kd cs, u, v => by
      obtain ⟨n, hfind, hval⟩ :=
        findGo_setGo rs ((Kids.lookup u cs).getD (.node none kd .nil)) r v
      refine ⟨n, ?_, hval⟩
      rw [show setGo (PTrie.node val kd cs) u (r :: rs) v =
            PTrie.node val kd
              (Kids.update u
                (setGo ((Kids.lookup u cs).getD (.node none kd .nil)) r rs v)
                cs) from rfl,
          findGo_cons _ u (r :: rs) _
            (show Kids.lookup u
                (PTrie.node val kd
                  (Kids.update u
                    (setGo ((Kids.lookup u cs).getD (.node none kd .nil)) r rs v)
                    cs)).children =
                some (setGo ((Kids.lookup u cs).getD (.node none kd .nil)) r rs v)
              from Kids.lookup_update_self u _ cs),
          hfind]

/-- A trie holding `None` everywhere along a fresh path: `setItem` with value
`None` on a fresh key `'a'` (used by the C1 counterexample). -/
def trieANone : PTrie Nat :=
  (setItem emptyStrTrie (strKey "a") none).toOption.getD emptyStrTrie

/-- C1 counterexample: the round-trip fails at the two edges of its
quantifiers: storing the sentinel value `None` succeeds but leaves
`contains == false` (while `get` returns `None`), and an empty key makes
`set` raise `IndexError` before anything is stored. -/
theorem roundtrip_counterexample :
    (setItem emptyStrTrie (strKey "a") none = .ok trieANone ∧
     containsOp trieANone (strKey "a") = .ok false ∧
     getItem trieANone (strKey "a") = .ok none) ∧
    resErr (setItem emptyStrTrie (PKey.pstr []) (some (1 : Nat))) =
      some .indexErr :=
  ⟨⟨rfl, rfl, rfl⟩, rfl⟩

/-- C1 (amended): for every non-empty key of the trie's kind and every
non-`None` value, `set` succeeds and then `get` returns exactly that value
and `contains` is true. -/
theorem roundtrip_set_get_contains {V : Type} (t : PTrie V) (k : PKey) (v : V)
    (hkind : k.kind = t.keyType) (hne : k.units ≠ []) :
    ∃ t', setItem t k (some v) = .ok t' ∧
      getItem t' k = .ok (some v) ∧ containsOp t' k = .ok true := by
  obtain ⟨u, rest, hu⟩ : ∃ u rest, k.units = u :: rest := by
    cases hu' : k.units with
    | nil => exact absurd hu' hne
    | cons u rest => exact ⟨u, rest, rfl⟩
  obtain ⟨n, hfind, hval⟩ := findGo_setGo rest t u (some v)
  have hkind' : k.kind = (setGo t u rest (some v)).keyType := by
    rw [setGo_keyType]; exact hkind
  refine ⟨setGo t u rest (some v), ?_, ?_, ?_⟩
  · unfold setItem
    rw [if_pos hkind, hu]
  · unfold getItem findTrie
    rw [if_pos hkind', hu, hfind]
    simp [Except.map, hval]
  · unfold containsOp findTrie
    rw [if_pos hkind', hu, hfind]
    show Except.ok n.value.isSome = Except.ok true
    rw [hval]
    rfl

/-- C1 witness: the round-trip at `'ab'` with value 9 on a fresh trie. -/
theorem roundtrip_witness :
    ∃ t', setItem emptyStrTrie (strKey "ab") (some 9) = .ok t' ∧
      getItem t' (strKey "ab") = .ok (some 9) ∧
      containsOp t' (strKey "ab") = .ok true :=
  roundtrip_set_get_contains emptyStrTrie (strKey "ab") 9 (by decide) (by decide)

/-- A key that `lookup` resolves is among the children keys. -/
theorem Kids.lookup_mem_keys {V : Type} :
    ∀ (ks : Kids V) (u : KUnit) (c : PTrie V),
      Kids.lookup u ks = some c → u ∈ Kids.keys ks
  | .nil, _, _, h => by simp [Kids.lookup] at h
  | .cons u' t rest, u, c, h => by
      by_cases he : u' = u
      · simp [Kids.keys, he]
      · simp [Kids.lookup, he] at h
        simp [Kids.keys]
        exact Or.inr (Kids.lookup_mem_keys rest u c h)

/-- Dict assignment keeps the key list, appending the key when it is new. -/
theorem Kids.keys_update {V : Type} (u : KUnit) (t : PTrie V) :
    ∀ ks : Kids V,
      Kids.keys (Kids.update u t ks) =
        if u ∈ Kids.keys ks then Kids.keys ks else Kids.keys ks ++ [u]
  | .nil => by simp [Kids.update, Kids.keys]
  | .cons u' t' rest => by
      by_cases he : u' = u
      · simp [Kids.update, he, Kids.keys]
      · have hne : ¬u = u' := fun h => he h.symm
        simp only [Kids.update, if_neg he, Kids.keys, Kids.keys_update u t rest,
          List.mem_cons]
        by_cases hm : u ∈ Kids.keys rest
        · simp [hm, hne]
        · simp [hm, hne]

/-- Dict assignment preserves distinctness of the children keys. -/
theorem Kids.keys_update_nodup {V : Type} (u : KUnit) (t : PTrie V)
    (ks : Kids V) (h : (Kids.keys ks).Nodup) :
    (Kids.keys (Kids.update u t ks)).Nodup := by
  rw [Kids.keys_update]
  by_cases hm : u ∈ Kids.keys ks
  · simpa [hm] using h
  · simp only [hm, if_false]
    simp [List.nodup_append, h, hm]

/-- A looked-up child of a well-formed children list is well-formed. -/
theorem wfKids_lookup {V : Type} :
    ∀ (ks : Kids V) (u : KUnit) (c : PTrie V),
      wfKids ks = true → Kids.lookup u ks = some c → wfT c = true
  | .nil, _, _, _, h => by simp [Kids.lookup] at h
  | .cons u' t rest, u, c, hwf, h => by
      have hw : wfT t = true ∧ wfKids rest = true := by
        simpa [wfKids, Bool.and_eq_true] using hwf
      by_cases he : u' = u
      · simp [Kids.lookup, he] at h
        exact h ▸ hw.1
      · simp [Kids.lookup, he] at h
        exact wfKids_lookup rest u c hw.2 h

/-- Replacing one binding with a well-formed trie keeps all children
well-formed. -/
theorem wfKids_update {V : Type} (u : KUnit) (t' : PTrie V) :
    ∀ ks : Kids V, wfKids ks = true → wfT t' = true →
      wfKids (Kids.update u t' ks) = true
  | .nil, _, ht => by simp [Kids.update, wfKids, ht]
  | .cons u' t rest, hwf, ht => by
      have hw : wfT t = true ∧ wfKids rest = true := by
        simpa [wfKids, Bool.and_eq_true] using hwf
      by_cases he : u' = u
      · simp [Kids.update, he, wfKids, ht, hw.2]
      · simp [Kids.update, he, wfKids, hw.1, wfKids_update u t' rest hw.2 ht]

/-- Setting a value slot does not affect well-formedness. -/
theorem wfT_withValue {V : Type} (t : PTrie V) (v : Option V) :
    wfT (t.withValue v) = wfT t := by
  cases t with
  | node val kd cs => rfl

/-- The fresh node `Trie(self.key_type)` is well-formed. -/
theorem wfT_fresh {V : Type} (kd : Kind) :
    wfT (PTrie.node (none : Option V) kd .nil) = true := by
  simp [wfT, wfKids, Kids.keys]

/-- `setGo` preserves well-formedness. -/
theorem setGo_wf {V : Type} :
    ∀ (rest : List KUnit) (t : PTrie V) (u : KUnit) (v : Option V),
      wfT t = true → wfT (setGo t u rest v) = true
  | [], .node val kd cs, u, v, hwf => by
      have hw : (Kids.keys cs).Nodup ∧ wfKids cs = true := by
        simpa [wfT, Bool.and_eq_true] using hwf
      have hcur : wfT ((Kids.lookup u cs).getD (.node none kd .nil)) = true := by
        cases hq : Kids.lookup u cs with
        | some c => simpa using wfKids_lookup cs u c hw.2 hq
        | none => simpa using wfT_fresh kd
      show wfT (PTrie.node val kd (Kids.update u _ cs)) = true
      simp only [wfT, Bool.and_eq_true]
      exact ⟨by simp [Kids.keys_update_nodup u _ cs hw.1],
        wfKids_update u _ cs hw.2 (by rw [wfT_withValue]; exact hcur)⟩
  | r :: rs, .node val kd cs, u, v, hwf => by
      have hw : (Kids.keys cs).Nodup ∧ wfKids cs = true := by
        simpa [wfT, Bool.and_eq_true] using hwf
      have hcur : wfT ((Kids.lookup u cs).getD (.node none kd .nil)) = true := by
        cases hq : Kids.lookup u cs with
        | some c => simpa using wfKids_lookup cs u c hw.2 hq
        | none => simpa using wfT_fresh kd
      show wfT (PTrie.node val kd (Kids.update u _ cs)) = true
      simp only [wfT, Bool.and_eq_true]
      exact ⟨by simp [Kids.keys_update_nodup u _ cs hw.1],
        wfKids_update u _ cs hw.2 (setGo_wf rs _ r v hcur)⟩

mutual
/-- `recursive_generator` started at `key` yields the entries started at the
empty key, each shifted by `key`. -/
theorem entriesGo_shift {V : Type} :
    ∀ (pre : List KUnit) (t : PTrie V),
      entriesGo pre t = (entriesGo [] t).map (fun e => (pre ++ e.1, e.2))
  | pre, .node v kd cs => by
      simp only [entriesGo]
      rw [entriesKids_shift pre cs]
      cases v with
      | some x => simp
      | none => simp

/-- The children half of `entriesGo_shift`. -/
theorem entriesKids_shift {V : Type} :
    ∀ (pre : List KUnit) (ks : Kids V),
      entriesKids pre ks = (entriesKids [] ks).map (fun e => (pre ++ e.1, e.2))
  | _, .nil => rfl
  | pre, .cons u t rest => by
      simp only [entriesKids]
      rw [entriesGo_shift (pre ++ [u]) t, entriesGo_shift ([] ++ [u]) t,
        entriesKids_shift pre rest, entriesKids_shift [] rest]
      simp [List.map_map, Function.comp_def, List.append_assoc]
end

/-- Membership in the entries of a children list, one child at a time. -/
theorem entriesKids_cons_mem {V : Type} (u : KUnit) (t : PTrie V)
    (rest : Kids V) (q : List KUnit) (x : V) :
    (q, x) ∈ entriesKids [] (.cons u t rest) ↔
      (∃ s, q = u :: s ∧ (s, x) ∈ entriesGo [] t) ∨
        (q, x) ∈ entriesKids [] rest := by
  simp only [entriesKids, List.mem_append]
  rw [entriesGo_shift ([] ++ [u]) t]
  simp only [List.mem_map, List.nil_append]
  constructor
  · rintro (⟨e, he, heq⟩ | h)
    · exact Or.inl ⟨e.1, by simp at heq; exact ⟨heq.1.symm, by
        rw [show e = (e.1, e.2) from rfl] at he; rwa [← heq.2] ⟩⟩
    · exact Or.inr h
  · rintro (⟨s, hq, hs⟩ | h)
    · exact Or.inl ⟨(s, x), hs, by simp [hq]⟩
    · exact Or.inr h

/-- Membership in the entries of a node: its own value, or a child's entry. -/
theorem entriesGo_node_mem {V : Type} (v : Option V) (kd : Kind) (cs : Kids V)
    (q : List KUnit) (x : V) :
    (q, x) ∈ entriesGo [] (.node v kd cs) ↔
      (q = [] ∧ v = some x) ∨ (q, x) ∈ entriesKids [] cs := by
  cases v with
  | some y => simp [entriesGo, Prod.ext_iff, eq_comm, Option.some_inj]
  | none => simp [entriesGo]

mutual
/-- In a well-formed trie, every generated entry is reachable: walking its
key finds a node that holds exactly the entry's value. -/
theorem entries_find {V : Type} :
    ∀ (t : PTrie V), wfT t = true → ∀ (q : List KUnit) (x : V),
      (q, x) ∈ entriesGo [] t →
      ∃ n, findGo t q = .ok n ∧ n.value = some x
  | .node v kd cs, hwf, q, x, hmem => by
      have hw : (Kids.keys cs).Nodup ∧ wfKids cs = true := by
        simpa [wfT, Bool.and_eq_true] using hwf
      rw [entriesGo_node_mem] at hmem
      rcases hmem with ⟨hq, hv⟩ | hm
      · subst hq
        exact ⟨.node v kd cs, rfl, by simp [PTrie.value, hv]⟩
      · obtain ⟨u, s, tc, n, hq, hlk, hfind, hval⟩ :=
          entriesKids_find cs hw.1 hw.2 q x hm
        subst hq
        refine ⟨n, ?_, hval⟩
        rw [findGo_cons _ u s tc
          (show Kids.lookup u (PTrie.node v kd cs).children = some tc from hlk)]
        exact hfind

/-- The children half of `entries_find`. -/
theorem entriesKids_find {V : Type} :
    ∀ (ks : Kids V), (Kids.keys ks).Nodup → wfKids ks = true →
      ∀ (q : List KUnit) (x : V), (q, x) ∈ entriesKids [] ks →
      ∃ u s tc n, q = u :: s ∧ Kids.lookup u ks = some tc ∧
        findGo tc s = .ok n ∧ n.value = some x
  | .nil, _, _, q, x, h => by simp [entriesKids] at h
  | .cons u t rest, hnd, hwfk, q, x, h => by
      have hw : wfT t = true ∧ wfKids rest = true := by
        simpa [wfKids, Bool.and_eq_true] using hwfk
      have hnd' : u ∉ Kids.keys rest ∧ (Kids.keys rest).Nodup := by
        simpa [Kids.keys, List.nodup_cons] using hnd
      rw [entriesKids_cons_mem] at h
      rcases h with ⟨s, hq, hs⟩ | h
      · obtain ⟨n, hfind, hval⟩ := entries_find t hw.1 s x hs
        exact ⟨u, s, t, n, hq, by simp [Kids.lookup], hfind, hval⟩
      · obtain ⟨u', s, tc, n, hq, hlk, hfind, hval⟩ :=
          entriesKids_find rest hnd'.2 hw.2 q x h
        have hne : ¬u = u' := by
          intro he
          exact hnd'.1 (he ▸ Kids.lookup_mem_keys rest u' tc hlk)
        exact ⟨u', s, tc, n, hq, by simp [Kids.lookup, hne, hlk], hfind, hval⟩
end

/-- When the node at a key holds no value, `delete` walks to it and raises
`KeyError`. -/
theorem delGo_err {V : Type} :
    ∀ (us : List KUnit) (t : PTrie V) (n : PTrie V),
      findGo t us = .ok n → n.value = none → delGo t us = .error .keyErr
  | [], t, n, hf, hv => by
      have ht : t = n := by
        simpa [findGo] using hf
      rw [delGo, ht, hv]
  | u :: rest, t, n, hf, hv => by
      cases hq : Kids.lookup u t.children with
      | some c =>
          rw [findGo_cons t u rest c hq] at hf
          rw [delGo, hq]
          show Except.map _ (delGo c rest) = _
          rw [delGo_err rest c n hf hv]
          rfl
      | none =>
          rw [findGo, hq] at hf
          exact absurd hf (by simp)

/-- C9: `None` is the absent-value sentinel: on a well-formed trie, for any
non-empty key of the right kind, `set(k, None)` succeeds and creates the
node path, yet afterwards `contains(k)` is false, `get(k)` returns `None`
without raising, `delete(k)` raises `KeyError`, and iteration does not
yield `k`. -/
theorem set_none_indistinguishable {V : Type} (t : PTrie V) (k : PKey)
    (hkind : k.kind = t.keyType) (hne : k.units ≠ []) (hwf : wfT t = true) :
    ∃ t', setItem t k none = .ok t' ∧
      (∃ n, findTrie t' k = .ok n) ∧
      containsOp t' k = .ok false ∧
      getItem t' k = .ok none ∧
      resErr (delItem t' k) = some .keyErr ∧
      (∀ x, (k.units, x) ∉ iterOp t') := by
  obtain ⟨u, rest, hu⟩ : ∃ u rest, k.units = u :: rest := by
    cases hu' : k.units with
    | nil => exact absurd hu' hne
    | cons u rest => exact ⟨u, rest, rfl⟩
  obtain ⟨n, hfind, hval⟩ := findGo_setGo rest t u (none : Option V)
  have hkind' : k.kind = (setGo t u rest none).keyType := by
    rw [setGo_keyType]; exact hkind
  have hwf' : wfT (setGo t u rest none) = true := setGo_wf rest t u none hwf
  refine ⟨setGo t u rest none, ?_, ⟨n, ?_⟩, ?_, ?_, ?_, ?_⟩
  · unfold setItem
    rw [if_pos hkind, hu]
  · unfold findTrie
    rw [if_pos hkind', hu, hfind]
  · unfold containsOp findTrie
    rw [if_pos hkind', hu, hfind]
    show Except.ok n.value.isSome = Except.ok false
    rw [hval]
    rfl
  · unfold getItem findTrie
    rw [if_pos hkind', hu, hfind]
    simp [Except.map, hval]
  · unfold delItem
    rw [if_pos hkind', hu, delGo_err (u :: rest) _ n (hu ▸ hfind) hval]
    rfl
  · intro x hmem
    obtain ⟨n', hfind', hval'⟩ :=
      entries_find (setGo t u rest none) hwf' k.units x hmem
    rw [hu, hfind] at hfind'
    cases hfind'
    rw [hval] at hval'
    exact Option.noConfusion hval'

/-- C9 witness: storing `None` at `'ab'` on a fresh trie creates the path
but leaves the key absent from every observer. -/
theorem set_none_indistinguishable_witness :
    ∃ t', setItem emptyStrTrie (strKey "ab") none = .ok t' ∧
      (∃ n, findTrie t' (strKey "ab") = .ok n) ∧
      containsOp t' (strKey "ab") = .ok false ∧
      getItem t' (strKey "ab") = .ok none ∧
      resErr (delItem t' (strKey "ab")) = some .keyErr ∧
      (∀ x, ((strKey "ab").units, x) ∉ iterOp t') :=
  set_none_indistinguishable emptyStrTrie (strKey "ab") (by decide) (by decide)
    (by decide)

/-- The value of a successful result, if any. -/
def resVal {α : Type} : Except PyErr α → Option α
  | .ok a => some a
  | .error _ => none

/-- A result whose projection is `some a` is `ok a`. -/
theorem resVal_ok {α : Type} (r : Except PyErr α) (a : α)
    (h : resVal r = some a) : r = .ok a := by
  cases r with
  | ok b => simpa [resVal] using congrArg (Option.map id) h
  | error e => simp [resVal] at h

set_option maxRecDepth 40000

/-- The trie holding `bat ↦ 1` and `cat ↦ 1`. -/
def trieBatCat : PTrie Nat := setW (setW emptyStrTrie "bat" 1) "cat" 1

/-- The trie holding only `cba ↦ 1`. -/
def trieCba : PTrie Nat := setW emptyStrTrie "cba" 1

/-- C5 counterexample: with `max_count` unset, `autocomplete(t, 'bat')`
returns `['bat']` but `autocorrect(t, 'bat')` does NOT return it as-is: the
edit phase always runs and appends the valid substitution `'cat'`. -/
theorem autocorrect_appends_edits_when_unbounded :
    autocompleteOp trieBatCat (.pstr (chars "bat")) none = .ok [wunits "bat"] ∧
    autocorrectOp trieBatCat (chars "bat") none =
      .ok [wunits "bat", wunits "cat"] :=
  ⟨rfl, rfl⟩

/-- C5 (amended): when `max_count` is set and `autocomplete` already yields
exactly `max_count` results, `autocorrect` returns that identical list; when
`max_count` is unset, `autocorrect` never returns the autocomplete results
as-is but always hands them to the edit phase. -/
theorem autocorrect_passthrough (t : PTrie Nat) (pw : List Char) :
    (∀ (m : Nat) (l : List (List KUnit)),
       autocompleteOp t (.pstr pw) (some m) = .ok l → l.length = m →
       autocorrectOp t pw (some m) = .ok l) ∧
    (∀ l : List (List KUnit), autocompleteOp t (.pstr pw) none = .ok l →
       autocorrectOp t pw none = editPhase t pw none l) := by
  constructor
  · intro m l hok hlen
    unfold autocorrectOp
    rw [hok]
    simp [hlen]
  · intro l hok
    unfold autocorrectOp
    rw [hok]
    rfl

/-- C5 witness: on the `bat`/`cat` trie with `max_count = 1`,
`autocomplete('ba', 1) = ['bat']` and `autocorrect` returns it unchanged. -/
theorem autocorrect_passthrough_witness :
    autocorrectOp trieBatCat (chars "ba") (some 1) = .ok [wunits "bat"] :=
  (autocorrect_passthrough trieBatCat (chars "ba")).1 1 [wunits "bat"] rfl rfl

/-- C10 counterexample: with only `'cba'` stored, no string in the
edit-distance-1 neighborhood of `'abc'` is a stored key and
`autocomplete('abc', 2)` yields `[]` (fewer than 2 results), yet
`autocorrect('abc', 2)` returns `['cba']` (found via the non-adjacent
transposition) instead of raising. -/
theorem autocorrect_raise_counterexample :
    (∀ w ∈ ed1Neighborhood (chars "abc"),
      resVal (containsOp trieCba (.pstr w)) = some false) ∧
    autocompleteOp trieCba (.pstr (chars "abc")) (some 2) = .ok [] ∧
    autocorrectOp trieCba (chars "abc") (some 2) = .ok [wunits "cba"] :=
  ⟨by decide, rfl, rfl⟩

/-- The edit loop leaves the frequency map untouched when every edit word is
already used or absent from the trie. -/
theorem editFold_skips (t : PTrie Nat) (used : List (List KUnit)) :
    ∀ (ws : List (List Char)) (fm : List (Nat × List (List KUnit)))
      (mf : Option Nat),
      (∀ w ∈ ws, w.map KUnit.uch ∈ used ∨ containsOp t (.pstr w) = .ok false) →
      editFold t used ws (fm, mf) = .ok (fm, mf)
  | [], _, _, _ => rfl
  | w :: ws', fm, mf, h => by
      by_cases hu : w.map KUnit.uch ∈ used
      · rw [editFold, if_pos hu]
        exact editFold_skips t used ws' fm mf fun x hx => h x (List.mem_cons_of_mem w hx)
      · have hc : containsOp t (.pstr w) = .ok false :=
          (h w (List.mem_cons_self w ws')).resolve_left hu
        rw [editFold, if_neg hu, hc]
        exact editFold_skips t used ws' fm mf fun x hx => h x (List.mem_cons_of_mem w hx)

/-- C10 (amended): the search front-ends raise the unguarded
`TypeError` of `range(None, 0, -1)` precisely in these situations:
`autocomplete` whenever the prefix's node path exists but the subtree
iterates no valued entry; and `autocorrect` whenever autocomplete returned
fewer than `max_count` results (or `max_count` is unset) and no candidate
produced by `get_edits` — a set that also contains non-adjacent
transpositions — outside the already-returned results is a stored key. -/
theorem empty_freq_map_raises (t : PTrie Nat) (n : Option Nat) :
    (∀ (p : PKey) (sub : PTrie Nat), findTrie t p = .ok sub → iterOp sub = [] →
       autocompleteOp t p n = .error .rangeNoneErr) ∧
    (∀ (pw : List Char) (el : List (List KUnit)),
       autocompleteOp t (.pstr pw) n = .ok el →
       (n = none ∨ ∃ m, n = some m ∧ el.length < m) →
       (∀ w ∈ getEdits pw, w.map KUnit.uch ∉ el →
         containsOp t (.pstr w) = .ok false) →
       autocorrectOp t pw n = .error .rangeNoneErr) := by
  constructor
  · intro p sub hsub hempty
    unfold autocompleteOp
    rw [hsub]
    show (match buildFreq (iterOp sub) with
          | (_, none) => Except.error PyErr.rangeNoneErr
          | (fm, some m) => Except.ok (bucketsLoop fm n p.units m [])) =
        Except.error PyErr.rangeNoneErr
    rw [hempty]
    rfl
  · intro pw el hok hfew hnone
    have heph : editPhase t pw n el = .error .rangeNoneErr := by
      unfold editPhase
      rw [editFold_skips t el (getEdits pw) [] none fun w hw => by
        by_cases hu : w.map KUnit.uch ∈ el
        · exact Or.inl hu
        · exact Or.inr (hnone w hw hu)]
    unfold autocorrectOp
    rw [hok]
    rcases hfew with h | ⟨m, hm, hlt⟩
    · subst h
      exact heph
    · subst hm
      show (if (decide (el.length < m) = true) then editPhase t pw (some m) el
            else Except.ok el) = Except.error PyErr.rangeNoneErr
      rw [if_pos (by simpa using hlt)]
      exact heph

/-- C10 witness: an empty trie makes `autocomplete('', 1)` raise (the root
path exists, no entry is valued), and with only `'xq'` stored and nothing
within one `get_edits` step of `'abc'`, `autocorrect('abc', 2)` raises. -/
theorem empty_freq_map_raises_witness :
    autocompleteOp emptyStrTrie (.pstr []) (some 1) = .error .rangeNoneErr ∧
    autocorrectOp (setW emptyStrTrie "xq" 1) (chars "abc") (some 2) =
      .error .rangeNoneErr :=
  ⟨(empty_freq_map_raises emptyStrTrie (some 1)).1 (.pstr []) emptyStrTrie
      rfl rfl,
   (empty_freq_map_raises (setW emptyStrTrie "xq" 1) (some 2)).2 (chars "abc")
      [] rfl (Or.inr ⟨2, rfl, by decide⟩)
      (fun w hw _ => resVal_ok _ _
        ((by decide : ∀ w ∈ getEdits (chars "abc"),
            resVal (containsOp (setW emptyStrTrie "xq" 1) (.pstr w)) =
              some false) w hw))⟩

/-- The words of the buckets from frequency `i` down to 1, in the order the
`for i in range(max_freq, 0, -1)` loop visits them. -/
def descWords (fm : List (Nat × List (List KUnit))) : Nat → List (List KUnit)
  | 0 => []
  | i + 1 => ((freqGet fm (i + 1)).getD []) ++ descWords fm i

/-- `descWords` with each word annotated by the bucket it came from. -/
def descPairs (fm : List (Nat × List (List KUnit))) :
    Nat → List (List KUnit × Nat)
  | 0 => []
  | i + 1 =>
      (((freqGet fm (i + 1)).getD []).map (fun w => (w, i + 1))) ++
        descPairs fm i

/-- With `max_count is None` the inner loop appends every bucket word. -/
theorem addWords_none (pfx : List KUnit) :
    ∀ (ws acc : List (List KUnit)),
      addWords none pfx ws acc = acc ++ ws.map (pfx ++ ·)
  | [], acc => by simp [addWords]
  | w :: rest, acc => by
      show addWords none pfx rest (acc ++ [pfx ++ w]) = _
      rw [addWords_none pfx rest (acc ++ [pfx ++ w])]
      simp

/-- With `max_count = m` the inner loop appends bucket words up to the
remaining capacity. -/
theorem addWords_some (pfx : List KUnit) (m : Nat) :
    ∀ (ws acc : List (List KUnit)),
      addWords (some m) pfx ws acc =
        acc ++ (ws.map (pfx ++ ·)).take (m - acc.length)
  | [], acc => by simp [addWords]
  | w :: rest, acc => by
      show (if acc.length < m then
              addWords (some m) pfx rest (acc ++ [pfx ++ w]) else acc) = _
      by_cases h : acc.length < m
      · rw [if_pos h, addWords_some pfx m rest (acc ++ [pfx ++ w])]
        have hmk : m - acc.length = (m - (acc.length + 1)) + 1 := by omega
        simp only [List.length_append, List.length_cons, List.length_nil,
          hmk, List.map_cons, List.take_succ_cons, List.append_assoc,
          List.singleton_append, Nat.zero_add]
      · rw [if_neg h]
        have h0 : m - acc.length = 0 := by omega
        simp [h0]

/-- The outer loop without a bound: all bucket words in descending order. -/
theorem bucketsLoop_none (fm : List (Nat × List (List KUnit)))
    (pfx : List KUnit) :
    ∀ (i : Nat) (acc : List (List KUnit)),
      bucketsLoop fm none pfx i acc = acc ++ (descWords fm i).map (pfx ++ ·)
  | 0, acc => by simp [bucketsLoop, descWords]
  | i + 1, acc => by
      rw [bucketsLoop, bucketsLoop_none fm pfx i]
      cases hb : freqGet fm (i + 1) with
      | some ws =>
          show addWords none pfx ws acc ++ _ = _
          rw [addWords_none]
          simp [descWords, hb, List.append_assoc]
      | none => simp [descWords, hb]

/-- The outer loop with bound `m`: the first `m` bucket words in descending
order. -/
theorem bucketsLoop_some (fm : List (Nat × List (List KUnit)))
    (pfx : List KUnit) (m : Nat) :
    ∀ (i : Nat) (acc : List (List KUnit)),
      bucketsLoop fm (some m) pfx i acc =
        acc ++ ((descWords fm i).map (pfx ++ ·)).take (m - acc.length)
  | 0, acc => by simp [bucketsLoop, descWords]
  | i + 1, acc => by
      rw [bucketsLoop, bucketsLoop_some fm pfx m i]
      cases hb : freqGet fm (i + 1) with
      | none => simp [descWords, hb]
      | some ws =>
          show addWords (some m) pfx ws acc ++
              List.take (m - (addWords (some m) pfx ws acc).length)
                (List.map (fun x => pfx ++ x) (descWords fm i)) = _
          rw [addWords_some]
          simp only [descWords, hb, Option.getD_some, List.map_append]
          rw [List.take_append_eq_append_take, ← List.append_assoc]
          congr 1
          congr 1
          simp only [List.length_append, List.length_take, List.length_map]
          omega

/-- The annotated and unannotated descending lists agree. -/
theorem descWords_eq_pairs (fm : List (Nat × List (List KUnit))) :
    ∀ i : Nat, descWords fm i = (descPairs fm i).map Prod.fst
  | 0 => rfl
  | i + 1 => by
      simp [descWords, descPairs, descWords_eq_pairs fm i, List.map_map,
        Function.comp_def]

/-- Membership in the descending list: exactly the bucket entries with
frequency between 1 and `i`. -/
theorem descPairs_mem (fm : List (Nat × List (List KUnit))) :
    ∀ (i : Nat) (w : List KUnit) (c : Nat),
      (w, c) ∈ descPairs fm i ↔
        1 ≤ c ∧ c ≤ i ∧ w ∈ (freqGet fm c).getD []
  | 0, w, c => by
      simp only [descPairs, List.not_mem_nil, false_iff, not_and]
      intro h1 h2
      omega
  | i + 1, w, c => by
      simp only [descPairs, List.mem_append, List.mem_map,
        descPairs_mem fm i]
      constructor
      · rintro (⟨w', hw', heq⟩ | ⟨h1, h2, h3⟩)
        · obtain ⟨rfl, rfl⟩ : w' = w ∧ i + 1 = c := by
            simpa [Prod.ext_iff] using heq
          exact ⟨by omega, le_refl _, hw'⟩
        · exact ⟨h1, by omega, h3⟩
      · rintro ⟨h1, h2, h3⟩
        by_cases hc : c = i + 1
        · subst hc
          exact Or.inl ⟨w, h3, rfl⟩
        · exact Or.inr ⟨h1, by omega, h3⟩

/-- Every annotated frequency in the list is at most the starting bucket. -/
theorem descPairs_snd_le (fm : List (Nat × List (List KUnit))) (i : Nat)
    (e : List KUnit × Nat) (he : e ∈ descPairs fm i) : e.2 ≤ i := by
  obtain ⟨_, h2, _⟩ := (descPairs_mem fm i e.1 e.2).1 (by simpa using he)
  exact h2

/-- A list all of whose pairs satisfy `R` is pairwise `R`. -/
theorem pairwise_of_all {α : Type} (R : α → α → Prop) :
    ∀ l : List α, (∀ a ∈ l, ∀ b ∈ l, R a b) → l.Pairwise R
  | [], _ => List.Pairwise.nil
  | a :: l, h =>
      List.Pairwise.cons (fun b hb => h a (by simp) b (by simp [hb]))
        (pairwise_of_all R l fun x hx y hy =>
          h x (by simp [hx]) y (by simp [hy]))

/-- The descending list is sorted by non-increasing frequency. -/
theorem descPairs_sorted (fm : List (Nat × List (List KUnit))) :
    ∀ i : Nat, (descPairs fm i).Pairwise (fun a b => b.2 ≤ a.2)
  | 0 => List.Pairwise.nil
  | i + 1 => by
      simp only [descPairs]
      rw [List.pairwise_append]
      refine ⟨?_, descPairs_sorted fm i, ?_⟩
      · refine pairwise_of_all _ _ ?_
        intro a ha b hb
        simp only [List.mem_map] at ha hb
        obtain ⟨wa, _, rfl⟩ := ha
        obtain ⟨wb, _, rfl⟩ := hb
        exact le_refl _
      · intro a ha b hb
        have hble := descPairs_snd_le fm i b hb
        simp only [List.mem_map] at ha
        obtain ⟨wa, _, rfl⟩ := ha
        simp only
        omega

/-- Membership in a bucket after one frequency-map update. -/
theorem mem_freqAdd :
    ∀ (fm : List (Nat × List (List KUnit))) (c : Nat) (w : List KUnit)
      (c' : Nat) (w' : List KUnit),
      w' ∈ (freqGet (freqAdd fm c w) c').getD [] ↔
        ((c' = c ∧ w' = w) ∨ w' ∈ (freqGet fm c').getD [])
  | [], c, w, c', w' => by
      simp only [freqAdd, freqGet]
      by_cases h : c = c'
      · subst h
        simp [eq_comm]
      · have h' : ¬c' = c := fun hh => h hh.symm
        simp [h, h']
  | (c0, ws) :: rest, c, w, c', w' => by
      simp only [freqAdd]
      by_cases h0 : c0 = c
      · subst h0
        simp only [if_pos rfl]
        by_cases h' : c0 = c'
        · subst h'
          simp only [freqGet, if_pos rfl, Option.getD_some, true_and]
          by_cases hw : w ∈ ws
          · simp only [if_pos hw]
            constructor
            · exact fun h => Or.inr h
            · rintro (rfl | h)
              · exact hw
              · exact h
          · simp only [if_neg hw, freqGet, if_pos rfl, if_true, ite_true,
              Option.getD_some, List.mem_append, List.mem_singleton]
            tauto
        · have hcc : ¬c' = c0 := fun hh => h' hh.symm
          simp [freqGet, h', hcc]
      · simp only [if_neg h0, freqGet]
        by_cases h' : c0 = c'
        · subst h'
          have hne : ¬(c0 = c) := h0
          simp [hne]
        · simp only [if_neg h']
          exact mem_freqAdd rest c w c' w'

/-- Folding the entry loop: a word sits in bucket `c` exactly when an entry
`(w, c)` was seen (or it was there at the start). -/
theorem foldl_freq_mem :
    ∀ (es : List (List KUnit × Nat)) (fm0 : List (Nat × List (List KUnit)))
      (mf0 : Option Nat) (c : Nat) (w : List KUnit),
      w ∈ (freqGet (es.foldl freqStep (fm0, mf0)).1 c).getD [] ↔
        ((w, c) ∈ es ∨ w ∈ (freqGet fm0 c).getD [])
  | [], fm0, mf0, c, w => by simp
  | e :: es', fm0, mf0, c, w => by
      rw [List.foldl_cons]
      show w ∈ (freqGet ((es'.foldl freqStep
          (freqAdd fm0 e.2 e.1, maxUpd mf0 e.2))).1 c).getD [] ↔ _
      rw [foldl_freq_mem es' _ _ c w, mem_freqAdd]
      simp only [List.mem_cons, Prod.ext_iff]
      tauto

/-- The running maximum after one update: defined, at least the new count,
and at least the old maximum. -/
theorem maxUpd_ge (mf : Option Nat) (c : Nat) :
    ∃ m', maxUpd mf c = some m' ∧ c ≤ m' ∧ ∀ m0, mf = some m0 → m0 ≤ m' := by
  cases mf with
  | none => exact ⟨c, rfl, le_refl _, by simp⟩
  | some m0 =>
      by_cases h : m0 = 0 ∨ m0 < c
      · refine ⟨c, by simp [maxUpd, h], le_refl _, ?_⟩
        intro m1 h1
        injection h1 with h1
        omega
      · refine ⟨m0, by simp [maxUpd, h], by omega, ?_⟩
        intro m1 h1
        injection h1 with h1
        omega

/-- The running maximum never decreases across the fold. -/
theorem foldl_snd_mono :
    ∀ (es : List (List KUnit × Nat)) (fm0 : List (Nat × List (List KUnit)))
      (mf0 : Option Nat) (m0 m : Nat), mf0 = some m0 →
      (es.foldl freqStep (fm0, mf0)).2 = some m → m0 ≤ m
  | [], fm0, mf0, m0, m, h0, h => by
      rw [List.foldl_nil] at h
      rw [h0] at h
      injection h with h
      omega
  | e :: es', fm0, mf0, m0, m, h0, h => by
      rw [List.foldl_cons] at h
      obtain ⟨m', hm', _, hmono⟩ := maxUpd_ge mf0 e.2
      have hle : m' ≤ m :=
        foldl_snd_mono es' (freqAdd fm0 e.2 e.1) (maxUpd mf0 e.2) m' m hm' h
      exact le_trans (hmono m0 h0) hle

/-- Every count seen by the fold is bounded by the final maximum. -/
theorem foldl_snd_bound :
    ∀ (es : List (List KUnit × Nat)) (fm0 : List (Nat × List (List KUnit)))
      (mf0 : Option Nat) (m : Nat),
      (es.foldl freqStep (fm0, mf0)).2 = some m → ∀ e ∈ es, e.2 ≤ m
  | [], _, _, _ => by
      intro _ e he
      simp at he
  | e :: es', fm0, mf0, m => by
      intro h e' he'
      rw [List.foldl_cons] at h
      rcases List.mem_cons.mp he' with rfl | hmem
      · obtain ⟨m', hm', hc, _⟩ := maxUpd_ge mf0 e'.2
        have hle : m' ≤ m :=
          foldl_snd_mono es' (freqAdd fm0 e'.2 e'.1) (maxUpd mf0 e'.2) m' m
            hm' h
        omega
      · exact foldl_snd_bound es' (freqAdd fm0 e.2 e.1) (maxUpd mf0 e.2) m h
          e' hmem

/-- An entry of a looked-up child, prefixed with the child's key, is an
entry of the children list. -/
theorem entriesKids_mem_of_lookup {V : Type} :
    ∀ (ks : Kids V) (u : KUnit) (c : PTrie V) (q : List KUnit) (x : V),
      Kids.lookup u ks = some c → (q, x) ∈ entriesGo [] c →
      (u :: q, x) ∈ entriesKids [] ks
  | .nil, _, _, _, _, hlk, _ => by simp [Kids.lookup] at hlk
  | .cons u' t rest, u, c, q, x, hlk, hm => by
      rw [entriesKids_cons_mem]
      by_cases he : u' = u
      · subst he
        have hlk' : t = c := by simpa [Kids.lookup] using hlk
        subst hlk'
        exact Or.inl ⟨q, rfl, hm⟩
      · simp only [Kids.lookup, if_neg he] at hlk
        exact Or.inr (entriesKids_mem_of_lookup rest u c q x hlk hm)

/-- An entry of the subtree at `us` is an entry of the whole trie under the
concatenated key. -/
theorem findGo_entries_embed {V : Type} :
    ∀ (us : List KUnit) (t sub : PTrie V) (s : List KUnit) (x : V),
      findGo t us = .ok sub → (s, x) ∈ entriesGo [] sub →
      (us ++ s, x) ∈ entriesGo [] t
  | [], t, sub, s, x, hf, hm => by
      have ht : t = sub := by simpa [findGo] using hf
      subst ht
      simpa using hm
  | u :: rest, t, sub, s, x, hf, hm => by
      cases hq : Kids.lookup u t.children with
      | none =>
          rw [findGo, hq] at hf
          exact absurd hf (by simp)
      | some c =>
          rw [findGo_cons t u rest c hq] at hf
          have hmem := findGo_entries_embed rest c sub s x hf hm
          cases t with
          | node v kd cs =>
              rw [show (u :: rest) ++ s = u :: (rest ++ s) from rfl,
                entriesGo_node_mem]
              exact Or.inr (entriesKids_mem_of_lookup cs u c (rest ++ s) x
                (by simpa [PTrie.children] using hq) hmem)

/-- Every entry key of a children list starts with one of its keys. -/
theorem entriesKids_key_head {V : Type} :
    ∀ (ks : Kids V) (q : List KUnit) (x : V),
      (q, x) ∈ entriesKids [] ks →
      ∃ u' s, q = u' :: s ∧ u' ∈ Kids.keys ks
  | .nil, q, x, h => by simp [entriesKids] at h
  | .cons u t rest, q, x, h => by
      rw [entriesKids_cons_mem] at h
      rcases h with ⟨s, rfl, _⟩ | h
      · exact ⟨u, s, rfl, by simp [Kids.keys]⟩
      · obtain ⟨u', s, hq, hmem⟩ := entriesKids_key_head rest q x h
        exact ⟨u', s, hq, by simp [Kids.keys, hmem]⟩

mutual
/-- In a well-formed trie, the generated entry keys are pairwise distinct. -/
theorem entries_keys_nodup {V : Type} :
    ∀ (t : PTrie V), wfT t = true → ((entriesGo [] t).map Prod.fst).Nodup
  | .node v kd cs, hwf => by
      have hw : (Kids.keys cs).Nodup ∧ wfKids cs = true := by
        simpa [wfT, Bool.and_eq_true] using hwf
      have hk := entriesKids_keys_nodup cs hw.1 hw.2
      cases v with
      | none => simpa [entriesGo] using hk
      | some x =>
          simp only [entriesGo, List.map_append, List.map_cons, List.map_nil,
            List.singleton_append, List.nodup_cons]
          refine ⟨?_, hk⟩
          intro hmem
          simp only [List.mem_map] at hmem
          obtain ⟨e, he, hfst⟩ := hmem
          obtain ⟨u', s, hq, _⟩ :=
            entriesKids_key_head cs e.1 e.2 (by simpa using he)
          rw [hfst] at hq
          exact List.noConfusion hq

/-- The children half of `entries_keys_nodup`. -/
theorem entriesKids_keys_nodup {V : Type} :
    ∀ (ks : Kids V), (Kids.keys ks).Nodup → wfKids ks = true →
      ((entriesKids [] ks).map Prod.fst).Nodup
  | .nil, _, _ => by simp [entriesKids]
  | .cons u t rest, hnd, hwfk => by
      have hw : wfT t = true ∧ wfKids rest = true := by
        simpa [wfKids, Bool.and_eq_true] using hwfk
      have hnd' : u ∉ Kids.keys rest ∧ (Kids.keys rest).Nodup := by
        simpa [Kids.keys, List.nodup_cons] using hnd
      simp only [entriesKids, List.map_append, List.nodup_append]
      refine ⟨?_, entriesKids_keys_nodup rest hnd'.2 hw.2, ?_⟩
      · rw [entriesGo_shift ([] ++ [u]) t]
        have : ((entriesGo [] t).map
              (fun e => (([] : List KUnit) ++ [u] ++ e.1, e.2))).map Prod.fst =
            ((entriesGo [] t).map Prod.fst).map (fun q => u :: q) := by
          simp [List.map_map, Function.comp_def]
        rw [this]
        exact (entries_keys_nodup t hw.1).map
          (fun a b hab => by simpa using hab)
      · intro q hq1 hq2
        simp only [List.mem_map] at hq1 hq2
        obtain ⟨e1, he1, hf1⟩ := hq1
        obtain ⟨e2, he2, hf2⟩ := hq2
        rw [entriesGo_shift ([] ++ [u]) t] at he1
        simp only [List.mem_map] at he1
        obtain ⟨e0, _, heq⟩ := he1
        obtain ⟨u2, s2, hq2', hmem2⟩ :=
          entriesKids_key_head rest e2.1 e2.2 (by simpa using he2)
        have h1 : q = u :: e0.1 := by
          rw [← hf1, ← heq]
          simp
        have h2 : q = u2 :: s2 := by rw [← hf2, hq2']
        rw [h1] at h2
        have : u = u2 := (List.cons.injEq _ _ _ _).mp h2 |>.1
        exact hnd'.1 (this ▸ hmem2)
end

/-- In a list with distinct first components, a key determines its value. -/
theorem nodup_fst_eq {α β : Type} :
    ∀ (l : List (α × β)), (l.map Prod.fst).Nodup →
      ∀ (a : α) (b1 b2 : β), (a, b1) ∈ l → (a, b2) ∈ l → b1 = b2
  | [], _, a, b1, b2, h, _ => by simp at h
  | e :: l, hnd, a, b1, b2, h1, h2 => by
      simp only [List.map_cons, List.nodup_cons] at hnd
      rcases List.mem_cons.mp h1 with he1 | hm1 <;>
        rcases List.mem_cons.mp h2 with he2 | hm2
      · rw [← he1] at he2
        exact (((Prod.mk.injEq _ _ _ _).mp he2).2).symm
      · exact absurd (by simpa [← he1] using List.mem_map_of_mem Prod.fst hm2)
          hnd.1
      · exact absurd (by simpa [← he2] using List.mem_map_of_mem Prod.fst hm1)
          hnd.1
      · exact nodup_fst_eq l hnd.2 a b1 b2 hm1 hm2

/-- Walking from a well-formed trie lands on a well-formed subtree. -/
theorem findGo_wf {V : Type} :
    ∀ (us : List KUnit) (t sub : PTrie V),
      wfT t = true → findGo t us = .ok sub → wfT sub = true
  | [], t, sub, hwf, hf => by
      have ht : t = sub := by simpa [findGo] using hf
      exact ht ▸ hwf
  | u :: rest, t, sub, hwf, hf => by
      cases hq : Kids.lookup u t.children with
      | none =>
          rw [findGo, hq] at hf
          exact absurd hf (by simp)
      | some c =>
          rw [findGo_cons t u rest c hq] at hf
          have hwc : wfT c = true := by
            cases t with
            | node v kd cs =>
                have hw : (Kids.keys cs).Nodup ∧ wfKids cs = true := by
                  simpa [wfT, Bool.and_eq_true] using hwf
                exact wfKids_lookup cs u c hw.2 (by simpa [PTrie.children] using hq)
          exact findGo_wf rest c sub hwc hf

/-- C3 counterexample: on a fresh trie the empty prefix's path exists (the
root), yet `autocomplete('', 1)` raises the `range(None, 0, -1)` `TypeError`
instead of returning a list. -/
theorem autocomplete_raises_counterexample :
    resErr (autocompleteOp emptyStrTrie (PKey.pstr []) (some 1)) =
      some .rangeNoneErr ∧
    findGo emptyStrTrie (PKey.pstr []).units = .ok emptyStrTrie :=
  ⟨rfl, rfl⟩

/-- C3 (amended): whenever `autocomplete(t, prefix, n)` actually returns a
list (it instead raises `TypeError` when the prefix subtree holds no valued
entry), the list has at most `n` elements, each starting with the prefix and
each a stored key of `t`, and no returned element has strictly lower
frequency than an excluded completion of the same prefix; when the prefix
path is absent the result is the empty list, not an error. -/
theorem autocomplete_top_n (t : PTrie Nat) (p : PKey) (n : Option Nat)
    (l : List (List KUnit)) (hwf : wfT t = true)
    (hok : autocompleteOp t p n = .ok l) :
    (∀ m', n = some m' → l.length ≤ m') ∧
    (∀ r ∈ l, ∃ s, r = p.units ++ s) ∧
    (∀ r ∈ l, ∃ v, (r, v) ∈ iterOp t) ∧
    (findTrie t p = .error .keyErr → l = []) ∧
    (∀ sub, findTrie t p = .ok sub →
      ∀ sr vr se ve, (sr, vr) ∈ iterOp sub → (se, ve) ∈ iterOp sub →
        p.units ++ sr ∈ l → p.units ++ se ∉ l → ve ≤ vr) := by
  unfold autocompleteOp at hok
  cases hft : findTrie t p with
  | error e =>
      rw [hft] at hok
      cases e with
      | keyErr =>
          have hok2 : Except.ok ([] : List (List KUnit)) = Except.ok l := hok
          have hl : l = [] := ((Except.ok.injEq _ _).mp hok2).symm
          subst hl
          refine ⟨by simp, by simp, by simp, fun _ => rfl, ?_⟩
          intro sub hsub
          exact absurd hsub (by simp)
      | typeKindErr => exact absurd hok (by simp)
      | indexErr => exact absurd hok (by simp)
      | rangeNoneErr => exact absurd hok (by simp)
  | ok sub =>
      rw [hft] at hok
      have hok2 : (match buildFreq (iterOp sub) with
          | (_, none) => Except.error PyErr.rangeNoneErr
          | (fm, some m) => Except.ok (bucketsLoop fm n p.units m [])) =
          Except.ok l := hok
      rcases hbf : buildFreq (iterOp sub) with ⟨fm, mf⟩
      rw [hbf] at hok2
      cases mf with
      | none => exact absurd hok2 (by simp)
      | some m =>
      have hl : l = bucketsLoop fm n p.units m [] :=
        ((Except.ok.injEq _ _).mp hok2).symm
      have hkind : p.kind = t.keyType := by
        by_contra h
        rw [findTrie, if_neg h] at hft
        exact absurd hft (by simp)
      have hfg : findGo t p.units = .ok sub := by
        rw [findTrie, if_pos hkind] at hft
        exact hft
      have hwfsub : wfT sub = true := findGo_wf p.units t sub hwf hfg
      have hbucket : ∀ (w : List KUnit) (c : Nat),
          w ∈ (freqGet fm c).getD [] ↔ (w, c) ∈ iterOp sub := by
        intro w c
        have h := foldl_freq_mem (iterOp sub) [] none c w
        rw [show (iterOp sub).foldl freqStep ([], none) =
              buildFreq (iterOp sub) from rfl, hbf] at h
        simpa [freqGet] using h
      have hmax : ∀ e ∈ iterOp sub, e.2 ≤ m := by
        apply foldl_snd_bound (iterOp sub) [] none m
        rw [show (iterOp sub).foldl freqStep ([], none) =
              buildFreq (iterOp sub) from rfl, hbf]
      have hD : (descWords fm m).map (p.units ++ ·) =
          (descPairs fm m).map (fun e => p.units ++ e.1) := by
        rw [descWords_eq_pairs fm m, List.map_map]
        rfl
      have hform : (n = none ∧
            l = (descPairs fm m).map (fun e => p.units ++ e.1)) ∨
          (∃ mc, n = some mc ∧
            l = ((descPairs fm m).map (fun e => p.units ++ e.1)).take mc) := by
        cases n with
        | none =>
            left
            refine ⟨rfl, ?_⟩
            rw [hl, bucketsLoop_none, hD]
            simp
        | some mc =>
            right
            refine ⟨mc, rfl, ?_⟩
            rw [hl, bucketsLoop_some, hD]
            simp
      have hmemD : ∀ r ∈ l, ∃ e, e ∈ descPairs fm m ∧ r = p.units ++ e.1 := by
        intro r hr
        have hrD : r ∈ (descPairs fm m).map (fun e => p.units ++ e.1) := by
          rcases hform with ⟨_, hln⟩ | ⟨mc, _, hls⟩
          · exact hln ▸ hr
          · exact List.take_subset mc _ (hls ▸ hr)
        simp only [List.mem_map] at hrD
        obtain ⟨e, he, heq⟩ := hrD
        exact ⟨e, he, heq.symm⟩
      refine ⟨?_, ?_, ?_, ?_, ?_⟩
      · intro m' hm'
        rcases hform with ⟨hn, _⟩ | ⟨mc, hn, hls⟩
        · rw [hn] at hm'
          exact absurd hm' (by simp)
        · rw [hn] at hm'
          have : mc = m' := by
            injection hm'
          subst this
          rw [hls]
          exact le_trans (List.length_take_le mc _) (le_refl mc)
      · intro r hr
        obtain ⟨e, _, heq⟩ := hmemD r hr
        exact ⟨e.1, heq⟩
      · intro r hr
        obtain ⟨e, he, heq⟩ := hmemD r hr
        obtain ⟨h1, h2, h3⟩ := (descPairs_mem fm m e.1 e.2).1 (by simpa using he)
        have hes : (e.1, e.2) ∈ iterOp sub := (hbucket e.1 e.2).1 h3
        refine ⟨e.2, ?_⟩
        rw [heq]
        exact findGo_entries_embed p.units t sub e.1 e.2 hfg hes
      · intro habs
        exact absurd habs (by simp)
      · intro sub' hsub' sr vr se ve hsr hse hrl hel
        have hsub : sub' = sub :=
          ((Except.ok.injEq _ _).mp hsub').symm
        rw [hsub] at hsr hse
        by_cases hve0 : ve = 0
        · omega
        have hvem : ve ≤ m := hmax (se, ve) hse
        have hseP : (se, ve) ∈ descPairs fm m :=
          (descPairs_mem fm m se ve).2 ⟨by omega, hvem, (hbucket se ve).2 hse⟩
        rcases hform with ⟨_, hln⟩ | ⟨mc, _, hls⟩
        · exact absurd (hln ▸ List.mem_map_of_mem
            (fun e => p.units ++ e.1) hseP) hel
        · rw [hls] at hrl hel
          rw [← List.map_take] at hrl hel
          simp only [List.mem_map] at hrl
          obtain ⟨e1, he1, heq1⟩ := hrl
          have hsr1 : e1.1 = sr := by
            have := heq1
            rwa [List.append_right_inj] at this
          have hseDrop : (se, ve) ∈ (descPairs fm m).drop mc := by
            have hsplit := List.take_append_drop mc (descPairs fm m)
            have : (se, ve) ∈ (descPairs fm m).take mc ++
                (descPairs fm m).drop mc := by
              rw [hsplit]
              exact hseP
            rcases List.mem_append.mp this with htk | hdp
            · exact absurd (List.mem_map_of_mem
                (fun e => p.units ++ e.1) htk) hel
            · exact hdp
          have hsorted := descPairs_sorted fm m
          rw [← List.take_append_drop mc (descPairs fm m)] at hsorted
          have hcross := (List.pairwise_append.mp hsorted).2.2
          have hvecr : ve ≤ e1.2 := hcross e1 he1 (se, ve) hseDrop
          have he1P : e1 ∈ descPairs fm m := List.take_subset mc _ he1
          obtain ⟨_, _, hbk⟩ := (descPairs_mem fm m e1.1 e1.2).1
            (by simpa using he1P)
          have hes1 : (e1.1, e1.2) ∈ iterOp sub := (hbucket e1.1 e1.2).1 hbk
          have hnd := entries_keys_nodup sub hwfsub
          have hcr : e1.2 = vr :=
            nodup_fst_eq (iterOp sub) hnd sr e1.2 vr (hsr1 ▸ hes1)
              hsr
          omega

/-- C3 witness: on the word trie of `bat bat bark bar`,
`autocomplete('ba', 2)` returns `['bat', 'bar']`: at most 2 elements, and
the returned element `'bat'` extends the prefix `'ba'`. -/
theorem autocomplete_top_n_witness :
    ([wunits "bat", wunits "bar"] : List (List KUnit)).length ≤ 2 ∧
    ∃ s, wunits "bat" = (strKey "ba").units ++ s :=
  ⟨(autocomplete_top_n
      (setW (setW (setW emptyStrTrie "bat" 2) "bark" 1) "bar" 1)
      (strKey "ba") (some 2) [wunits "bat", wunits "bar"]
      (by decide) rfl).1 2 rfl,
   (autocomplete_top_n
      (setW (setW (setW emptyStrTrie "bat" 2) "bark" 1) "bar" 1)
      (strKey "ba") (some 2) [wunits "bat", wunits "bar"]
      (by decide) rfl).2.1 (wunits "bat") (by decide)⟩

/-- Python `==` between a unit and a character succeeds exactly on that
character. -/
theorem unitEqChar_true (u : KUnit) (c : Char) :
    unitEqChar u c = true ↔ u = .uch c := by
  cases u with
  | uch c' => simp [unitEqChar]
  | uel e => simp [unitEqChar]

/-- A key among the children keys has a binding. -/
theorem mem_keys_lookup {V : Type} :
    ∀ (ks : Kids V) (u : KUnit), u ∈ Kids.keys ks →
      ∃ c, Kids.lookup u ks = some c
  | .nil, u, h => by simp [Kids.keys] at h
  | .cons u' t rest, u, h => by
      by_cases he : u' = u
      · exact ⟨t, by simp [Kids.lookup, he]⟩
      · have hm : u ∈ Kids.keys rest := by
          rcases List.mem_cons.mp (by simpa [Kids.keys] using h) with rfl | hm
          · exact absurd rfl he
          · exact hm
        obtain ⟨c, hc⟩ := mem_keys_lookup rest u hm
        exact ⟨c, by simp [Kids.lookup, he, hc]⟩

/-- The empty key is an entry exactly when the node itself holds the value. -/
theorem entries_nil_mem {V : Type} (v : Option V) (kd : Kind) (cs : Kids V)
    (v' : V) : (([], v') ∈ entriesGo [] (.node v kd cs)) ↔ v = some v' := by
  rw [entriesGo_node_mem]
  constructor
  · rintro (⟨_, h⟩ | hmem)
    · exact h
    · obtain ⟨u', s, h, _⟩ := entriesKids_key_head cs [] v' hmem
      exact absurd h (by simp)
  · exact fun h => Or.inl ⟨rfl, h⟩

/-- With distinct children keys, an entry headed by `u` is exactly an entry
of the unique child bound to `u`. -/
theorem entriesKids_mem_lookup_nodup {V : Type} :
    ∀ (ks : Kids V) (u : KUnit) (c : PTrie V) (q : List KUnit) (x : V),
      (Kids.keys ks).Nodup → Kids.lookup u ks = some c →
      ((u :: q, x) ∈ entriesKids [] ks ↔ (q, x) ∈ entriesGo [] c)
  | .nil, u, c, q, x, _, hlk => by simp [Kids.lookup] at hlk
  | .cons u' t rest, u, c, q, x, hnd, hlk => by
      have hnd' : u' ∉ Kids.keys rest ∧ (Kids.keys rest).Nodup := by
        simpa [Kids.keys, List.nodup_cons] using hnd
      rw [entriesKids_cons_mem]
      by_cases he : u' = u
      · subst he
        have hct : t = c := by simpa [Kids.lookup] using hlk
        subst hct
        constructor
        · rintro (⟨s, heq, hs⟩ | hmem)
          · obtain ⟨rfl⟩ : q = s := by
              simpa using heq
            exact hs
          · obtain ⟨u2, s2, hq2, hm2⟩ := entriesKids_key_head rest _ x hmem
            have hu2 : u' = u2 := ((List.cons.injEq _ _ _ _).mp hq2).1
            exact absurd (hu2 ▸ hm2) hnd'.1
        · exact fun h => Or.inl ⟨q, rfl, h⟩
      · simp only [Kids.lookup, if_neg he] at hlk
        rw [← entriesKids_mem_lookup_nodup rest u c q x hnd'.2 hlk]
        constructor
        · rintro (⟨s, heq, _⟩ | hmem)
          · exact absurd ((List.cons.injEq _ _ _ _).mp heq).1.symm he
          · exact hmem
        · exact fun h => Or.inr h

/-- A leading `*` matches exactly when some suffix matches the rest. -/
theorem keyMatch_star_iff (p : List Char) (s : List KUnit) :
    keyMatch ('*' :: p) s = true ↔ ∃ s', s' <:+ s ∧ keyMatch p s' = true := by
  show (if ('*' : Char) = '*' then s.tails.any (fun s' => keyMatch p s')
    else _) = true ↔ _
  rw [if_pos rfl, List.any_eq_true]
  constructor
  · rintro ⟨s', hmem, h⟩
    exact ⟨s', (List.mem_tails _ _).mp hmem, h⟩
  · rintro ⟨s', hsfx, h⟩
    exact ⟨s', (List.mem_tails _ _).mpr hsfx, h⟩

/-- A match without the star still matches with it (star takes zero). -/
theorem keyMatch_star_weaken (p : List Char) (s : List KUnit)
    (h : keyMatch p s = true) : keyMatch ('*' :: p) s = true :=
  (keyMatch_star_iff p s).mpr ⟨s, List.suffix_refl s, h⟩

/-- Consecutive stars collapse. -/
theorem keyMatch_star_idem (p : List Char) (s : List KUnit) :
    keyMatch ('*' :: '*' :: p) s = true ↔ keyMatch ('*' :: p) s = true := by
  rw [keyMatch_star_iff, keyMatch_star_iff]
  constructor
  · rintro ⟨s', hs', h⟩
    obtain ⟨s'', hs'', h'⟩ := (keyMatch_star_iff p s').mp h
    exact ⟨s'', hs''.trans hs', h'⟩
  · rintro ⟨s', hs', h⟩
    exact ⟨s, List.suffix_refl s, (keyMatch_star_iff p s).mpr ⟨s', hs', h⟩⟩

/-- The source's `while` collapse of a star run does not change matching. -/
theorem keyMatch_collapse :
    ∀ (p : List Char) (s : List KUnit),
      keyMatch ('*' :: p.dropWhile (fun c => c == '*')) s = true ↔
        keyMatch ('*' :: p) s = true
  | [], _ => Iff.rfl
  | c :: p', s => by
      by_cases hc : c = '*'
      · subst hc
        rw [show List.dropWhile (fun c => c == '*') ('*' :: p') =
              List.dropWhile (fun c => c == '*') p' from by
            simp [List.dropWhile]]
        rw [keyMatch_collapse p' s]
        exact (keyMatch_star_idem p' s).symm
      · have hcb : (c == '*') = false := by simpa using hc
        rw [show List.dropWhile (fun c => c == '*') (c :: p') = c :: p' from by
          simp [List.dropWhile, hcb]]

/-- Star against a non-empty key: match the rest here, or keep the star
active past the first unit. -/
theorem keyMatch_star_cons (p : List Char) (u : KUnit) (s : List KUnit) :
    keyMatch ('*' :: p) (u :: s) = true ↔
      (keyMatch p (u :: s) = true ∨ keyMatch ('*' :: p) s = true) := by
  rw [keyMatch_star_iff, keyMatch_star_iff]
  constructor
  · rintro ⟨s', hs', h⟩
    rcases List.suffix_cons_iff.mp hs' with rfl | hs''
    · exact Or.inl h
    · exact Or.inr ⟨s', hs'', h⟩
  · rintro (h | ⟨s', hs', h⟩)
    · exact ⟨u :: s, List.suffix_refl _, h⟩
    · exact ⟨s', hs'.trans (List.suffix_cons u s), h⟩

/-- Star against the empty key only matches via zero units. -/
theorem keyMatch_star_nil (p : List Char) :
    keyMatch ('*' :: p) [] = keyMatch p [] := by
  show (if ('*' : Char) = '*' then
    ([] : List KUnit).tails.any (fun s' => keyMatch p s') else _) = _
  rw [if_pos rfl]
  simp

mutual
/-- `search` collects exactly the entries of the current subtree whose
relative key matches the pattern, shifted by the accumulated word. -/
theorem searchT_mem :
    ∀ (cur : PTrie Nat) (pat : List Char) (word : List KUnit)
      (x : List KUnit × Nat), wfT cur = true →
      (x ∈ searchT pat word cur ↔
        ∃ s v, x = (word ++ s, v) ∧ (s, v) ∈ entriesGo [] cur ∧
          keyMatch pat s = true)
  | .node v0 kd cs, pat, word, x, hwf => by
      have hw : (Kids.keys cs).Nodup ∧ wfKids cs = true := by
        simpa [wfT, Bool.and_eq_true] using hwf
      cases pat with
      | nil =>
          cases v0 with
          | none =>
              have hunf : searchT [] word (PTrie.node none kd cs) =
                  (∅ : Finset (List KUnit × Nat)) := by
                simp [searchT, PTrie.value]
              rw [hunf]
              constructor
              · intro hx
                exact absurd hx (Finset.not_mem_empty x)
              · rintro ⟨s, v, hx, hmem, hkm⟩
                have hs : s = [] := by
                  cases s with
                  | nil => rfl
                  | cons a b => simp [keyMatch] at hkm
                subst hs
                exact Option.noConfusion ((entries_nil_mem none kd cs v).mp hmem)
          | some v1 =>
              have hunf : searchT [] word (PTrie.node (some v1) kd cs) =
                  {(word, v1)} := by
                simp [searchT, PTrie.value]
              rw [hunf, Finset.mem_singleton]
              constructor
              · rintro rfl
                exact ⟨[], v1, by simp, (entries_nil_mem _ kd cs v1).mpr rfl,
                  by simp [keyMatch]⟩
              · rintro ⟨s, v, hx, hmem, hkm⟩
                have hs : s = [] := by
                  cases s with
                  | nil => rfl
                  | cons a b => simp [keyMatch] at hkm
                subst hs
                have hv : v = v1 := by
                  have := (entries_nil_mem (some v1) kd cs v).mp hmem
                  exact (Option.some.injEq _ _).mp this.symm
                rw [hx, hv]
                simp
      | cons p0 prest =>
      by_cases hstar : p0 = '*'
      · subst hstar
        have hunf : searchT ('*' :: prest) word (PTrie.node v0 kd cs) =
            searchT (prest.dropWhile (fun c => c == '*')) word
              (PTrie.node v0 kd cs) ∪
            searchStarKids (prest.dropWhile (fun c => c == '*')) word cs := by
          simp [searchT, PTrie.children]
        rw [hunf, Finset.mem_union,
          searchT_mem (.node v0 kd cs) (prest.dropWhile (fun c => c == '*'))
            word x hwf,
          searchStar_mem cs (prest.dropWhile (fun c => c == '*')) word x hw.2]
        constructor
        · rintro (⟨s, v, hx, hmem, hkm⟩ | ⟨u, s', v, hx, hmem, hkm⟩)
          · exact ⟨s, v, hx, hmem,
              (keyMatch_collapse prest s).mp (keyMatch_star_weaken _ s hkm)⟩
          · refine ⟨u :: s', v, hx, ?_, ?_⟩
            · rw [entriesGo_node_mem]
              exact Or.inr hmem
            · exact (keyMatch_collapse prest _).mp
                ((keyMatch_star_cons _ u s').mpr (Or.inr hkm))
        · rintro ⟨s, v, hx, hmem, hkm⟩
          have hkm' : keyMatch
              ('*' :: prest.dropWhile (fun c => c == '*')) s = true :=
            (keyMatch_collapse prest s).mpr hkm
          rw [entriesGo_node_mem] at hmem
          rcases hmem with ⟨hs, hv⟩ | hmem
          · subst hs
            left
            refine ⟨[], v, hx, (entries_nil_mem v0 kd cs v).mpr hv, ?_⟩
            rw [keyMatch_star_nil] at hkm'
            exact hkm'
          · obtain ⟨u, s', hq, _⟩ := entriesKids_key_head cs s v hmem
            subst hq
            rcases (keyMatch_star_cons _ u s').mp hkm' with hk1 | hk2
            · left
              refine ⟨u :: s', v, hx, ?_, hk1⟩
              rw [entriesGo_node_mem]
              exact Or.inr hmem
            · right
              exact ⟨u, s', v, hx, hmem, hk2⟩
      · by_cases hqm : p0 = '?'
        · subst hqm
          have hunf : searchT ('?' :: prest) word (PTrie.node v0 kd cs) =
              searchAnyKids prest word cs := by
            simp [searchT, PTrie.children]
          rw [hunf, searchAny_mem cs prest word x hw.2]
          constructor
          · rintro ⟨u, s', v, hx, hmem, hkm⟩
            refine ⟨u :: s', v, hx, ?_, ?_⟩
            · rw [entriesGo_node_mem]
              exact Or.inr hmem
            · simpa [keyMatch] using hkm
          · rintro ⟨s, v, hx, hmem, hkm⟩
            cases s with
            | nil => simp [keyMatch] at hkm
            | cons u s' =>
                have hk' : keyMatch prest s' = true := by
                  simpa [keyMatch] using hkm
                rw [entriesGo_node_mem] at hmem
                rcases hmem with ⟨habs, _⟩ | hmem
                · exact absurd habs (by simp)
                · exact ⟨u, s', v, hx, hmem, hk'⟩
        · cases hlk : Kids.lookup (KUnit.uch p0) cs with
          | some c =>
              have hunf : searchT (p0 :: prest) word (PTrie.node v0 kd cs) =
                  searchT prest (word ++ [KUnit.uch p0]) c := by
                conv_lhs => rw [searchT.eq_def]
                simp only [if_neg hstar, if_neg hqm]
                split
                · rename_i c2 hc2
                  simp only [PTrie.children] at hc2
                  rw [hlk] at hc2
                  have hcc : c = c2 := (Option.some.injEq _ _).mp hc2
                  rw [hcc]
                · rename_i hc2
                  simp only [PTrie.children] at hc2
                  rw [hlk] at hc2
                  exact Option.noConfusion hc2
              rw [hunf]
              rw [searchT_mem c prest (word ++ [KUnit.uch p0]) x
                (wfKids_lookup cs _ c hw.2 hlk)]
              constructor
              · rintro ⟨s', v, hx, hmem, hkm⟩
                refine ⟨KUnit.uch p0 :: s', v,
                  by simpa [List.append_assoc] using hx, ?_, ?_⟩
                · rw [entriesGo_node_mem]
                  exact Or.inr ((entriesKids_mem_lookup_nodup cs _ c s' v
                    hw.1 hlk).mpr hmem)
                · simp [keyMatch, hstar, hqm, unitEqChar, hkm]
              · rintro ⟨s, v, hx, hmem, hkm⟩
                cases s with
                | nil => simp [keyMatch, hstar] at hkm
                | cons u s' =>
                    have hu : unitEqChar u p0 = true ∧
                        keyMatch prest s' = true := by
                      simpa [keyMatch, hstar, hqm, Bool.and_eq_true] using hkm
                    have hup : u = KUnit.uch p0 := (unitEqChar_true u p0).mp hu.1
                    subst hup
                    rw [entriesGo_node_mem] at hmem
                    rcases hmem with ⟨habs, _⟩ | hmem
                    · exact absurd habs (by simp)
                    · exact ⟨s', v, by simpa [List.append_assoc] using hx,
                        (entriesKids_mem_lookup_nodup cs _ c s' v hw.1
                          hlk).mp hmem, hu.2⟩
          | none =>
              have hunf : searchT (p0 :: prest) word (PTrie.node v0 kd cs) =
                  (∅ : Finset (List KUnit × Nat)) := by
                conv_lhs => rw [searchT.eq_def]
                simp only [if_neg hstar, if_neg hqm]
                split
                · rename_i c2 hc2
                  simp only [PTrie.children] at hc2
                  rw [hlk] at hc2
                  exact Option.noConfusion hc2
                · rfl
              rw [hunf]
              constructor
              · intro hx
                exact absurd hx (Finset.not_mem_empty x)
              · rintro ⟨s, v, hx, hmem, hkm⟩
                cases s with
                | nil => simp [keyMatch, hstar] at hkm
                | cons u s' =>
                    have hu : unitEqChar u p0 = true ∧
                        keyMatch prest s' = true := by
                      simpa [keyMatch, hstar, hqm, Bool.and_eq_true] using hkm
                    have hup : u = KUnit.uch p0 := (unitEqChar_true u p0).mp hu.1
                    subst hup
                    rw [entriesGo_node_mem] at hmem
                    rcases hmem with ⟨habs, _⟩ | hmem
                    · exact absurd habs (by simp)
                    · obtain ⟨u2, s2, hq2, hm2⟩ :=
                        entriesKids_key_head cs _ v hmem
                      have hu2 : KUnit.uch p0 = u2 :=
                        ((List.cons.injEq _ _ _ _).mp hq2).1
                      obtain ⟨c, hc⟩ := mem_keys_lookup cs _ (hu2 ▸ hm2)
                      rw [hc] at hlk
                      exact Option.noConfusion hlk
termination_by cur pat => (PTrie.sz cur, pat.length)
decreasing_by
  all_goals
    first
    | exact Prod.Lex.right _ (Nat.lt_succ_of_le (dropWhile_len_le _ _))
    | exact Prod.Lex.left _ _ (by simp only [PTrie.sz]; omega)
    | exact Prod.Lex.left _ _
        (lt_trans (Kids.sz_lookup _ _ _ hlk) (by simp only [PTrie.sz]; omega))

/-- The star-branch child loop collects exactly the children's entries whose
key still matches the active star pattern. -/
theorem searchStar_mem :
    ∀ (ks : Kids Nat) (prest : List Char) (word : List KUnit)
      (x : List KUnit × Nat), wfKids ks = true →
      (x ∈ searchStarKids prest word ks ↔
        ∃ u s' v, x = (word ++ u :: s', v) ∧
          (u :: s', v) ∈ entriesKids [] ks ∧
          keyMatch ('*' :: prest) s' = true)
  | .nil, prest, word, x, _ => by
      simp [searchStarKids, entriesKids]
  | .cons u tc rest, prest, word, x, hwfk => by
      have hw : wfT tc = true ∧ wfKids rest = true := by
        simpa [wfKids, Bool.and_eq_true] using hwfk
      have hunf : searchStarKids prest word (Kids.cons u tc rest) =
          searchT ('*' :: prest) (word ++ [u]) tc ∪
            (match prest with
             | p1 :: _ =>
                 if unitEqChar u p1 then searchT prest (word ++ [u]) tc
                 else (∅ : Finset (List KUnit × Nat))
             | [] => (∅ : Finset (List KUnit × Nat))) ∪
            searchStarKids prest word rest := by
        conv_lhs => rw [searchStarKids.eq_def]
      rw [hunf, Finset.mem_union, Finset.mem_union,
        searchT_mem tc ('*' :: prest) (word ++ [u]) x hw.1,
        searchStar_mem rest prest word x hw.2]
      constructor
      · rintro ((⟨s, v, hx, hmem, hkm⟩ | hskip) | ⟨u2, s2, v, hx, hmem, hkm⟩)
        · exact ⟨u, s, v, by simpa [List.append_assoc] using hx,
            (entriesKids_cons_mem u tc rest _ v).mpr (Or.inl ⟨s, rfl, hmem⟩),
            hkm⟩
        · cases prest with
          | nil => exact absurd hskip (Finset.not_mem_empty x)
          | cons p1 pr =>
              have hskip' : x ∈ (if unitEqChar u p1 = true then
                  searchT (p1 :: pr) (word ++ [u]) tc
                  else (∅ : Finset (List KUnit × Nat))) := hskip
              by_cases hue : unitEqChar u p1 = true
              · rw [if_pos hue] at hskip'
                obtain ⟨s, v, hx, hmem, hkm⟩ :=
                  (searchT_mem tc (p1 :: pr) (word ++ [u]) x hw.1).mp hskip'
                exact ⟨u, s, v, by simpa [List.append_assoc] using hx,
                  (entriesKids_cons_mem u tc rest _ v).mpr
                    (Or.inl ⟨s, rfl, hmem⟩),
                  keyMatch_star_weaken _ s hkm⟩
              · rw [if_neg hue] at hskip'
                exact absurd hskip' (Finset.not_mem_empty x)
        · exact ⟨u2, s2, v, hx,
            (entriesKids_cons_mem u tc rest _ v).mpr (Or.inr hmem), hkm⟩
      · rintro ⟨u2, s2, v, hx, hmem, hkm⟩
        rcases (entriesKids_cons_mem u tc rest _ v).mp hmem with
          ⟨s3, heq, hs3⟩ | hmem2
        · obtain ⟨h1, h2⟩ := (List.cons.injEq _ _ _ _).mp heq
          subst h1
          subst h2
          exact Or.inl (Or.inl ⟨_, v, by simpa [List.append_assoc] using hx,
            hs3, hkm⟩)
        · exact Or.inr ⟨u2, s2, v, hx, hmem2, hkm⟩
termination_by ks => (Kids.sz ks, 0)
decreasing_by
  all_goals exact Prod.Lex.left _ _ (by simp only [Kids.sz]; omega)

/-- The `?`-branch child loop collects exactly the children's entries whose
tail matches the remaining pattern. -/
theorem searchAny_mem :
    ∀ (ks : Kids Nat) (prest : List Char) (word : List KUnit)
      (x : List KUnit × Nat), wfKids ks = true →
      (x ∈ searchAnyKids prest word ks ↔
        ∃ u s' v, x = (word ++ u :: s', v) ∧
          (u :: s', v) ∈ entriesKids [] ks ∧ keyMatch prest s' = true)
  | .nil, prest, word, x, _ => by
      simp [searchAnyKids, entriesKids]
  | .cons u tc rest, prest, word, x, hwfk => by
      have hw : wfT tc = true ∧ wfKids rest = true := by
        simpa [wfKids, Bool.and_eq_true] using hwfk
      have hunf : searchAnyKids prest word (Kids.cons u tc rest) =
          searchT prest (word ++ [u]) tc ∪
            searchAnyKids prest word rest := by
        conv_lhs => rw [searchAnyKids.eq_def]
      rw [hunf, Finset.mem_union,
        searchT_mem tc prest (word ++ [u]) x hw.1,
        searchAny_mem rest prest word x hw.2]
      constructor
      · rintro (⟨s, v, hx, hmem, hkm⟩ | ⟨u2, s2, v, hx, hmem, hkm⟩)
        · exact ⟨u, s, v, by simpa [List.append_assoc] using hx,
            (entriesKids_cons_mem u tc rest _ v).mpr (Or.inl ⟨s, rfl, hmem⟩),
            hkm⟩
        · exact ⟨u2, s2, v, hx,
            (entriesKids_cons_mem u tc rest _ v).mpr (Or.inr hmem), hkm⟩
      · rintro ⟨u2, s2, v, hx, hmem, hkm⟩
        rcases (entriesKids_cons_mem u tc rest _ v).mp hmem with
          ⟨s3, heq, hs3⟩ | hmem2
        · obtain ⟨h1, h2⟩ := (List.cons.injEq _ _ _ _).mp heq
          subst h1
          subst h2
          exact Or.inl ⟨_, v, by simpa [List.append_assoc] using hx, hs3, hkm⟩
        · exact Or.inr ⟨u2, s2, v, hx, hmem2, hkm⟩
termination_by ks => (Kids.sz ks, 0)
decreasing_by
  all_goals exact Prod.Lex.left _ _ (by simp only [Kids.sz]; omega)
end

mutual
/-- Every child key in the trie is a character unit.  Word tries built
through the API have this shape; it is the regime where `search`'s string
concatenations (`word + c`, `prefix[0]`) are well-typed in Python, so the
matcher theorems are stated over it. -/
def charKeyedT {V : Type} : PTrie V → Bool
  | .node _ _ cs => charKeyedKids cs

/-- `charKeyedT` for a children list. -/
def charKeyedKids {V : Type} : Kids V → Bool
  | .nil => true
  | .cons u t rest =>
      (match u with | .uch _ => true | .uel _ => false) &&
        charKeyedT t && charKeyedKids rest
end

/-- The word index built from the tokenized corpus `bar bark bat bat`. -/
def trieBar : PTrie Nat :=
  mkWordTrie [chars "bar", chars "bark", chars "bat", chars "bat"]

/-- The wildcard matcher agrees with declarative matching: `search` from the
root returns exactly the stored entries whose key matches the pattern. -/
theorem wordFilter_eq_filter (t : PTrie Nat) (pat : List Char)
    (hwf : wfT t = true) :
    wordFilterOp t pat =
      ((entriesGo [] t).filter (fun e => keyMatch pat e.1)).toFinset := by
  ext x
  rw [wordFilterOp, searchT_mem t pat [] x hwf]
  simp only [List.mem_toFinset, List.mem_filter, List.nil_append]
  constructor
  · rintro ⟨s, v, rfl, hmem, hkm⟩
    exact ⟨hmem, hkm⟩
  · intro h
    exact ⟨x.1, x.2, rfl, h.1, h.2⟩

/-- C6: `word_filter(trie, pattern)` returns exactly the stored
`(key, frequency)` pairs whose key matches the pattern (literal = itself,
`?` = exactly one unit, `*` = zero or more units), with no duplicates; on
the word index of `bar bark bat bat` the three spec scenarios come out
exactly as stated. -/
theorem word_filter_matches :
    (∀ (t : PTrie Nat) (pat : List Char), wfT t = true →
       charKeyedT t = true →
       wordFilterOp t pat =
         ((entriesGo [] t).filter (fun e => keyMatch pat e.1)).toFinset) ∧
    wordFilterOp trieBar (chars "*") =
      {(wunits "bar", 1), (wunits "bark", 1), (wunits "bat", 2)} ∧
    wordFilterOp trieBar (chars "???") =
      {(wunits "bar", 1), (wunits "bat", 2)} ∧
    wordFilterOp trieBar (chars "*r*") =
      {(wunits "bar", 1), (wunits "bark", 1)} := by
  have hwfBar : wfT trieBar = true := by decide
  refine ⟨fun t pat hwf _ => wordFilter_eq_filter t pat hwf, ?_, ?_, ?_⟩
  · rw [wordFilter_eq_filter trieBar (chars "*") hwfBar]
    decide
  · rw [wordFilter_eq_filter trieBar (chars "???") hwfBar]
    decide
  · rw [wordFilter_eq_filter trieBar (chars "*r*") hwfBar]
    decide

/-- C6 witness: the general matcher equivalence applied to the concrete
word index and the pattern `ba?`. -/
theorem word_filter_matches_witness :
    wordFilterOp trieBar (chars "ba?") =
      ((entriesGo [] trieBar).filter
        (fun e => keyMatch (chars "ba?") e.1)).toFinset :=
  word_filter_matches.1 trieBar (chars "ba?") (by decide) (by decide)
